import Mathlib

/-
Verification of the sudoku constraint engine of grid-magic-solver
(src/utils/sudokuSolver.ts, used by src/pages/Index.tsx).

The TypeScript source mutates a `number[][]` board in place; here a board
is a `List (List Nat)` and every mutation is explicit functional update.
`Math.random()` draws are modelled by an explicit stream `s : Nat → Nat`
(an integer draw `Math.floor(Math.random() * n)` becomes `s k % n`, which
ranges over exactly the same outcomes) together with one rational
`q ∈ [0,1)` for the single fractional draw in `generatePuzzle`.  The
unbounded recursion of the backtracking solver is driven by a fuel
argument; `solveAux_fuel_eq` below shows the result is independent of the
fuel once it exceeds the number of empty cells, so the wrapper
`solveSudoku` (fuel = countZeros + 1) computes the value of the original
unbounded recursion.
-/

namespace GridMagic

abbrev Board := List (List Nat)

/-- Reading `board[r][c]`; out-of-range reads yield 0 (the TS code never
performs them on the square boards the claims quantify over). -/
def getCell (b : Board) (r c : Nat) : Nat := (b.getD r []).getD c 0

/-- Writing `board[r][c] = v` as a functional update. -/
def setCell (b : Board) (r c v : Nat) : Board := b.set r ((b.getD r []).set c v)

def zCount : List Nat → Nat
  | [] => 0
  | x :: xs => (if x = 0 then 1 else 0) + zCount xs

def nzCount : List Nat → Nat
  | [] => 0
  | x :: xs => (if x = 0 then 0 else 1) + nzCount xs

def countZeros (b : Board) : Nat := (b.map zCount).sum

def countNonzero (b : Board) : Nat := (b.map nzCount).sum

/-- Row-major list of the cell coordinates scanned by the nested
`for (row …) for (col …)` loops of the source. -/
def allCells (n : Nat) : List (Nat × Nat) :=
  (List.range n).flatMap fun r => (List.range n).map fun c => (r, c)

/-- Helper for `sqrtN`: the largest `j ≤ k` with `j * j ≤ n` (0 if none). -/
def sqrtAux (n : Nat) : Nat → Nat
  | 0 => 0
  | k + 1 => if (k + 1) * (k + 1) ≤ n then k + 1 else sqrtAux n k

/-- Integer square root, structurally recursive so that kernel evaluation
works; `sqrtN_eq_sqrt` below shows it agrees with `Nat.sqrt`, hence with
`Math.sqrt(size)` on the perfect-square board sizes the code is used
with. -/
def sqrtN (n : Nat) : Nat := sqrtAux n n

/-- Translation of `isSafe` (sudokuSolver.ts): the row scan, the column
scan and the `boxSize × boxSize` box scan, each returning false on the
first hit of `num`. -/
def isSafe (board : Board) (row col num : Nat) : Bool :=
  let size := board.length
  let boxSize := sqrtN size
  let startRow := row - row % boxSize
  let startCol := col - col % boxSize
  ((List.range size).all fun x => !(getCell board row x == num)) &&
  ((List.range size).all fun x => !(getCell board x col == num)) &&
  ((List.range boxSize).all fun i =>
    (List.range boxSize).all fun j =>
      !(getCell board (i + startRow) (j + startCol) == num))

/-- The row-major scan for the first empty cell performed at the top of
each `solve()` invocation. -/
def findEmpty (size : Nat) (b : Board) : Option (Nat × Nat) :=
  (allCells size).find? fun p => getCell b p.1 p.2 == 0

/-- The `for (num = 1; num <= size; num++)` candidate loop of `solve()`:
place a safe candidate, recurse through `f`, on failure reset the cell to
0 and try the next candidate.  `f` is the recursive call. -/
def tryNumsF (f : Board → Nat → Bool × Board × Nat) (r c : Nat) :
    Board → List Nat → Nat → Bool × Board × Nat
  | b, [], steps => (false, b, steps)
  | b, num :: rest, steps =>
    if isSafe b r c num then
      match f (setCell b r c num) steps with
      | (true, b2, s2) => (true, b2, s2)
      | (false, b2, s2) => tryNumsF f r c (setCell b2 r c 0) rest s2
    else tryNumsF f r c b rest steps

/-- The recursive `solve()` closure of `solveSudoku`, with explicit fuel
and the `steps` counter threaded through (the source increments `steps`
on entry to every invocation). -/
def solveAux (size : Nat) : Nat → Board → Nat → Bool × Board × Nat
  | 0, b, steps => (false, b, steps)
  | fuel + 1, b, steps =>
    match findEmpty size b with
    | none => (true, b, steps + 1)
    | some (r, c) => tryNumsF (solveAux size fuel) r c b (List.range' 1 size) (steps + 1)

/-- Translation of `solveSudoku`: result is `(solved, grid, steps)`. -/
def solveSudoku (b : Board) : Bool × Board × Nat :=
  solveAux b.length (countZeros b + 1) b 0

/-- Candidate loop of the animated solver: identical search, but every
placement and every backtrack reset also appends the current board to the
trace of `onUpdate` snapshots (the awaited delays have no effect on the
result and are not modelled). -/
def tryNumsAF (f : Board → Nat → List Board → Bool × Board × Nat × List Board) (r c : Nat) :
    Board → List Nat → Nat → List Board → Bool × Board × Nat × List Board
  | b, [], steps, tr => (false, b, steps, tr)
  | b, num :: rest, steps, tr =>
    if isSafe b r c num then
      match f (setCell b r c num) steps (tr ++ [setCell b r c num]) with
      | (true, b2, s2, tr2) => (true, b2, s2, tr2)
      | (false, b2, s2, tr2) =>
          tryNumsAF f r c (setCell b2 r c 0) rest s2 (tr2 ++ [setCell b2 r c 0])
    else tryNumsAF f r c b rest steps tr

/-- The recursive `solve()` closure of `solveSudokuAnimated`. -/
def solveAnimAux (size : Nat) :
    Nat → Board → Nat → List Board → Bool × Board × Nat × List Board
  | 0, b, steps, tr => (false, b, steps, tr)
  | fuel + 1, b, steps, tr =>
    match findEmpty size b with
    | none => (true, b, steps + 1, tr)
    | some (r, c) =>
        tryNumsAF (solveAnimAux size fuel) r c b (List.range' 1 size) (steps + 1) tr

/-- Translation of `solveSudokuAnimated`: the awaited result
`(solved, grid, steps)` plus the list of boards passed to `onUpdate`. -/
def solveSudokuAnimated (b : Board) : Bool × Board × Nat × List Board :=
  solveAnimAux b.length (countZeros b + 1) b 0 []

/-- Cell loop of `isValidSudoku`: for each non-zero cell, temporarily
clear it, run `isSafe` against its own value, restore it; stop with
`false` at the first conflict.  The board is returned so that the
temporary mutation is visible to the caller of the model. -/
def isValidGo : Board → List (Nat × Nat) → Bool × Board
  | b, [] => (true, b)
  | b, (r, c) :: rest =>
    let num := getCell b r c
    if num ≠ 0 then
      let b1 := setCell b r c 0
      if !(isSafe b1 r c num) then (false, setCell b1 r c num)
      else isValidGo (setCell b1 r c num) rest
    else isValidGo b rest

/-- Translation of `isValidSudoku` keeping the final board state. -/
def isValidRun (b : Board) : Bool × Board := isValidGo b (allCells b.length)

/-- Translation of `isValidSudoku` (its boolean result). -/
def isValidSudoku (b : Board) : Bool := (isValidRun b).1

/-- The `[numbers[i], numbers[j]] = [numbers[j], numbers[i]]` swap. -/
def swapL (l : List Nat) (i j : Nat) : List Nat :=
  (l.set i (l.getD j 0)).set j (l.getD i 0)

/-- The Fisher–Yates loop of `fillBox`: `i` runs from `length - 1` down
to 1, `j = Math.floor(Math.random() * (i + 1))` is modelled as
`s k % (i + 1)`.  The argument of the match is the current `i` minus 1,
so `i0 + 1` is the current loop index. -/
def shuffleGo (s : Nat → Nat) : List Nat → Nat → Nat → List Nat × Nat
  | l, k, 0 => (l, k)
  | l, k, i0 + 1 => shuffleGo s (swapL l (i0 + 1) (s k % (i0 + 2))) (k + 1) i0

/-- Shuffle of the `numbers` array in `fillBox`. -/
def shuffle (l : List Nat) (s : Nat → Nat) (k : Nat) : List Nat × Nat :=
  shuffleGo s l k (l.length - 1)

/-- The two nested fill loops of `fillBox`: cell `(row+i, col+j)` receives
`numbers[i*boxSize + j]` (the running `numIndex`). -/
def fillList (row col m : Nat) (nums : List Nat) :
    Board → List (Nat × Nat) → Board
  | g, [] => g
  | g, (i, j) :: rest =>
      fillList row col m nums (setCell g (row + i) (col + j) (nums.getD (i * m + j) 0)) rest

/-- Translation of `fillBox grid row col size`, threading the random
counter. -/
def fillBox (g : Board) (row col size : Nat) (s : Nat → Nat) (k : Nat) : Board × Nat :=
  let m := sqrtN size
  let (nums, k1) := shuffle (List.range' 1 size) s k
  (fillList row col m nums g (allCells m), k1)

/-- The `for (i = 0; i < size; i += boxSize) fillBox(grid, i, i, size)`
loop of `generatePuzzle`, over the list of diagonal box corners. -/
def seedGo (size : Nat) (s : Nat → Nat) : Board → Nat → List Nat → Board × Nat
  | g, k, [] => (g, k)
  | g, k, i :: rest =>
      let (g1, k1) := fillBox g i i size s k
      seedGo size s g1 k1 rest

/-- Diagonal-box seeding step of `generatePuzzle`, starting from the
all-zero board. -/
def seedBoard (size : Nat) (s : Nat → Nat) (k : Nat) : Board × Nat :=
  seedGo size s (List.replicate size (List.replicate size 0))
    k ((List.range (sqrtN size)).map (· * sqrtN size))

/-- One `do { row = …; col = …} while (grid[row][col] === 0)` retry loop
followed by the clear `grid[row][col] = 0`; `fuel` bounds the number of
retries (the source retries unboundedly, so a run of the source that
terminates is a run of this model for some fuel). -/
def removeOne (size : Nat) (s : Nat → Nat) : Board → Nat → Nat → Option (Board × Nat)
  | _, _, 0 => none
  | g, k, fuel + 1 =>
      let r := s k % size
      let c := s (k + 1) % size
      if getCell g r c = 0 then removeOne size s g (k + 2) fuel
      else some (setCell g r c 0, k + 2)

/-- The `for (i = 0; i < cellsToRemove; i++)` removal loop. -/
def removeCells (size : Nat) (s : Nat → Nat) (retry : Nat) :
    Board → Nat → Nat → Option (Board × Nat)
  | g, k, 0 => some (g, k)
  | g, k, n + 1 =>
      match removeOne size s g k retry with
      | none => none
      | some (g1, k1) => removeCells size s retry g1 k1 n

/-- The fill ratio `0.3 + Math.random() * 0.2` with `q` the random
draw. -/
def rOf (q : ℚ) : ℚ := 3 / 10 + q * (2 / 10)

/-- `cellsToKeep = Math.floor(size * size * (0.3 + Math.random() * 0.2))`. -/
def keepCount (size : Nat) (q : ℚ) : Nat :=
  (⌊((size : ℚ) * (size : ℚ)) * rOf q⌋).toNat

/-- Translation of `generatePuzzle size`: build the empty grid, seed the
diagonal boxes, complete with `solveSudoku`, then clear
`size*size - cellsToKeep` random non-zero cells.  `none` models a run in
which the removal retry loop exceeds its fuel (the source would still be
looping). -/
def generatePuzzle (size : Nat) (q : ℚ) (s : Nat → Nat) (retry : Nat) : Option Board :=
  let (g1, k1) := seedBoard size s 0
  let g2 := (solveSudoku g1).2.1
  let cellsToKeep := keepCount size q
  let cellsToRemove := size * size - cellsToKeep
  match removeCells size s retry g2 k1 cellsToRemove with
  | none => none
  | some (g, _) => some g

/-- Values of row `r` (length-`size` boards). -/
def rowVals (b : Board) (size r : Nat) : List Nat :=
  (List.range size).map fun c => getCell b r c

/-- Values of column `c`. -/
def colVals (b : Board) (size c : Nat) : List Nat :=
  (List.range size).map fun r => getCell b r c

/-- Values of the box with corner `(br*m, bc*m)`, row-major. -/
def boxVals (b : Board) (m br bc : Nat) : List Nat :=
  (List.range (m * m)).map fun t => getCell b (br * m + t / m) (bc * m + t % m)

/-- The board is a `size × size` matrix. -/
def Square (size : Nat) (b : Board) : Prop :=
  b.length = size ∧ ∀ row ∈ b, row.length = size

/-- All cell values are at most `size`. -/
def ValuesLe (size : Nat) (b : Board) : Prop :=
  ∀ r c, getCell b r c ≤ size

/-- Every in-range cell is filled. -/
def FullB (size : Nat) (b : Board) : Prop :=
  ∀ r c, r < size → c < size → getCell b r c ≠ 0

/-- No two distinct in-range cells in the same row, column or
`√size × √size` box hold the same non-zero value. -/
def NoConflicts (size : Nat) (b : Board) : Prop :=
  ∀ r1 c1 r2 c2, r1 < size → c1 < size → r2 < size → c2 < size →
    (r1, c1) ≠ (r2, c2) →
    (r1 = r2 ∨ c1 = c2 ∨
      (r1 / sqrtN size = r2 / sqrtN size ∧ c1 / sqrtN size = c2 / sqrtN size)) →
    getCell b r1 c1 ≠ 0 → getCell b r1 c1 ≠ getCell b r2 c2

/-- Well-formedness invariant carried through the solver. -/
def Pre (size : Nat) (b : Board) : Prop :=
  Square size b ∧ NoConflicts size b ∧ ValuesLe size b

/-- The check `isValidSudoku` performs at one cell: a filled cell, with
itself temporarily cleared, must pass `isSafe` for its own value. -/
def cellOk (b : Board) (r c : Nat) : Prop :=
  getCell b r c ≠ 0 → isSafe (setCell b r c 0) r c (getCell b r c) = true

/-- State-independent behaviour of a solver call: non-zero cells are
never overwritten, and a failed search restores the board. -/
def FrameSpec (b : Board) (res : Bool × Board × Nat) : Prop :=
  (∀ r c, getCell b r c ≠ 0 → getCell res.2.1 r c = getCell b r c) ∧
  (res.1 = false → res.2.1 = b)

/-- Behaviour of a solver call on well-formed boards. -/
def SolveSpec (size : Nat) (b : Board) (res : Bool × Board × Nat) : Prop :=
  Pre size res.2.1 ∧
  (∀ r c, getCell b r c ≠ 0 → getCell res.2.1 r c = getCell b r c) ∧
  (res.1 = false → res.2.1 = b) ∧
  (res.1 = true → FullB size res.2.1)

theorem sqrtAux_spec (n m : Nat) (hmn : m * m ≤ n)
    (hbig : ∀ j, m < j → ¬(j * j ≤ n)) :
    ∀ k, m ≤ k → sqrtAux n k = m := by
  intro k
  induction k with
  | zero =>
    intro h
    have hm : m = 0 := by omega
    subst hm
    rfl
  | succ k ih =>
    intro hmk
    rw [sqrtAux]
    by_cases hle : (k + 1) * (k + 1) ≤ n
    · rw [if_pos hle]
      have h1 : ¬(m < k + 1) := fun hlt => hbig (k + 1) hlt hle
      omega
    · rw [if_neg hle]
      have hne : m ≠ k + 1 := fun he => hle (he ▸ hmn)
      exact ih (by omega)

theorem sqrtN_eq (m : Nat) : sqrtN (m * m) = m := by
  refine sqrtAux_spec (m * m) m (Nat.le_refl _) ?_ (m * m) ?_
  · intro j hj hle
    have h := Nat.mul_lt_mul'' hj hj
    omega
  · rcases Nat.eq_zero_or_pos m with h | h
    · subst h
      exact Nat.le_refl 0
    · have h2 := Nat.mul_le_mul_left m h
      omega

theorem sqrtN_pos {n : Nat} (hn : 0 < n) : 0 < sqrtN n := by
  suffices h : ∀ k, 1 ≤ k → 1 ≤ sqrtAux n k from h n hn
  intro k
  induction k with
  | zero => omega
  | succ k ih =>
    intro _
    rw [sqrtAux]
    by_cases hle : (k + 1) * (k + 1) ≤ n
    · rw [if_pos hle]
      omega
    · rw [if_neg hle]
      rcases Nat.eq_zero_or_pos k with h0 | hp
      · subst h0
        exact absurd (by omega : (0 + 1) * (0 + 1) ≤ n) hle
      · exact ih hp

theorem sqrtN_eq_sqrt (n : Nat) : sqrtN n = Nat.sqrt n := by
  rcases Nat.eq_zero_or_pos n with h | hpos
  · subst h
    rfl
  · have h1 : Nat.sqrt n * Nat.sqrt n ≤ n := by
      have h0 := Nat.sqrt_le' n
      rw [pow_two] at h0
      exact h0
    have h2 : ∀ j, Nat.sqrt n < j → ¬(j * j ≤ n) := by
      intro j hj hle
      have h3 : Nat.sqrt n < Nat.sqrt n := by
        have h4 : j ≤ Nat.sqrt n := Nat.le_sqrt'.mpr (by rw [pow_two]; exact hle)
        omega
      omega
    refine sqrtAux_spec n (Nat.sqrt n) h1 h2 n (Nat.sqrt_le_self n)

theorem getD_set_eq {α : Type} (l : List α) (i : Nat) (x d : α) (h : i < l.length) :
    (l.set i x).getD i d = x := by
  simp [List.getD_eq_getElem?_getD, List.getElem?_set_self h]

theorem getD_set_ne {α : Type} (l : List α) {i j : Nat} (x d : α) (h : i ≠ j) :
    (l.set i x).getD j d = l.getD j d := by
  simp [List.getD_eq_getElem?_getD, List.getElem?_set_ne h]

theorem set_getD_self {α : Type} (l : List α) (i : Nat) (d : α) :
    l.set i (l.getD i d) = l := by
  by_cases h : i < l.length
  · refine List.ext_getElem? fun n => ?_
    rw [List.getElem?_set]
    by_cases hin : i = n
    · subst hin
      simp [h, List.getD_eq_getElem?_getD, List.getElem?_eq_getElem h]
    · simp [hin]
  · exact List.set_eq_of_length_le (Nat.le_of_not_lt h)

theorem setCell_length (b : Board) (r c v : Nat) :
    (setCell b r c v).length = b.length := by
  simp [setCell]

theorem setCell_of_length_le (b : Board) {r : Nat} (c v : Nat) (h : b.length ≤ r) :
    setCell b r c v = b := by
  unfold setCell
  exact List.set_eq_of_length_le h

theorem getCell_setCell_ne (b : Board) {r c r' c' : Nat} (v : Nat)
    (h : r ≠ r' ∨ c ≠ c') : getCell (setCell b r c v) r' c' = getCell b r' c' := by
  rcases h with h | h
  · unfold getCell setCell
    rw [getD_set_ne _ _ _ h]
  · by_cases hr : r = r'
    · subst hr
      by_cases hlen : r < b.length
      · unfold getCell setCell
        rw [getD_set_eq _ _ _ _ hlen, getD_set_ne _ _ _ h]
      · rw [setCell_of_length_le b c v (Nat.le_of_not_lt hlen)]
    · unfold getCell setCell
      rw [getD_set_ne _ _ _ hr]

theorem getCell_setCell_self (b : Board) {r c : Nat} (v : Nat)
    (hr : r < b.length) (hc : c < (b.getD r []).length) :
    getCell (setCell b r c v) r c = v := by
  unfold getCell setCell
  rw [getD_set_eq _ _ _ _ hr, getD_set_eq _ _ _ _ hc]

theorem setCell_self (b : Board) (r c : Nat) :
    setCell b r c (getCell b r c) = b := by
  unfold setCell getCell
  rw [set_getD_self, set_getD_self]

theorem setCell_zero (b : Board) {r c : Nat} (h : getCell b r c = 0) :
    setCell b r c 0 = b := by
  have h2 := setCell_self b r c
  rwa [h] at h2

theorem setCell_setCell (b : Board) (r c v w : Nat) :
    setCell (setCell b r c v) r c w = setCell b r c w := by
  by_cases hlen : r < b.length
  · conv =>
      lhs
      unfold setCell
    conv =>
      rhs
      unfold setCell
    rw [getD_set_eq _ _ _ _ hlen, List.set_set, List.set_set]
  · rw [setCell_of_length_le b c v (Nat.le_of_not_lt hlen)]

theorem restore_eq (b : Board) (r c : Nat) :
    setCell (setCell b r c 0) r c (getCell b r c) = b := by
  rw [setCell_setCell, setCell_self]

theorem getD_mem_of_lt {α : Type} (l : List α) {i : Nat} (d : α) (h : i < l.length) :
    l.getD i d ∈ l := by
  rw [List.getD_eq_getElem?_getD, List.getElem?_eq_getElem h]
  exact List.getElem_mem h

theorem square_setCell {size : Nat} {b : Board} (hb : Square size b) (r c v : Nat) :
    Square size (setCell b r c v) := by
  obtain ⟨hl, hrows⟩ := hb
  by_cases hr : r < b.length
  · constructor
    · rw [setCell_length]; exact hl
    · intro row hrow
      rcases List.mem_or_eq_of_mem_set hrow with h | h
      · exact hrows row h
      · subst h
        rw [List.length_set]
        exact hrows _ (getD_mem_of_lt b [] hr)
  · rw [setCell, List.set_eq_of_length_le (Nat.le_of_not_lt hr)]
    exact ⟨hl, hrows⟩

theorem mem_allCells {n : Nat} {p : Nat × Nat} :
    p ∈ allCells n ↔ p.1 < n ∧ p.2 < n := by
  obtain ⟨r, c⟩ := p
  simp [allCells, List.mem_flatMap, List.mem_map, List.mem_range]

theorem isSafe_iff (b : Board) (r c v : Nat) :
    isSafe b r c v = true ↔
      (∀ x, x < b.length → getCell b r x ≠ v) ∧
      (∀ x, x < b.length → getCell b x c ≠ v) ∧
      (∀ i j, i < sqrtN b.length → j < sqrtN b.length →
        getCell b (i + (r - r % sqrtN b.length)) (j + (c - c % sqrtN b.length)) ≠ v) := by
  simp [isSafe, List.all_eq_true, List.mem_range]
  tauto

theorem findEmpty_eq_none_iff (size : Nat) (b : Board) :
    findEmpty size b = none ↔ ∀ r c, r < size → c < size → getCell b r c ≠ 0 := by
  constructor
  · intro h r c hr hc
    have h2 := List.find?_eq_none.mp h (r, c) (mem_allCells.mpr ⟨hr, hc⟩)
    simpa using h2
  · intro h
    refine List.find?_eq_none.mpr fun p hp => ?_
    have hm := mem_allCells.mp hp
    simpa using h p.1 p.2 hm.1 hm.2

theorem findEmpty_some {size : Nat} {b : Board} {r c : Nat}
    (h : findEmpty size b = some (r, c)) :
    r < size ∧ c < size ∧ getCell b r c = 0 := by
  have h1 := List.find?_some h
  have h2 := mem_allCells.mp (List.mem_of_find?_eq_some h)
  refine ⟨h2.1, h2.2, ?_⟩
  simpa using h1

theorem zCount_set {l : List Nat} {c : Nat} {v : Nat}
    (hc : c < l.length) (h0 : l.getD c 0 = 0) (hv : v ≠ 0) :
    zCount (l.set c v) + 1 = zCount l := by
  induction l generalizing c with
  | nil => simp at hc
  | cons x xs ih =>
    cases c with
    | zero =>
      simp [List.getD] at h0
      subst h0
      simp [zCount, hv]
      omega
    | succ c =>
      have hc' : c < xs.length := by simpa using hc
      have h0' : xs.getD c 0 = 0 := by simpa [List.getD] using h0
      have := ih hc' h0'
      simp [zCount, List.set]
      omega

theorem countZeros_set_row {b : Board} {r : Nat} {row' : List Nat}
    (hr : r < b.length) (h : zCount row' + 1 = zCount (b.getD r [])) :
    countZeros (b.set r row') + 1 = countZeros b := by
  induction b generalizing r with
  | nil => simp at hr
  | cons x xs ih =>
    cases r with
    | zero =>
      simp [List.getD] at h
      simp [countZeros, List.set]
      omega
    | succ r =>
      have hr' : r < xs.length := by simpa using hr
      have h' : zCount row' + 1 = zCount (xs.getD r []) := by simpa [List.getD] using h
      have := ih hr' h'
      simp [countZeros, List.set] at this ⊢
      omega

theorem countZeros_setCell {b : Board} {r c v : Nat}
    (hr : r < b.length) (hc : c < (b.getD r []).length)
    (h0 : getCell b r c = 0) (hv : v ≠ 0) :
    countZeros (setCell b r c v) + 1 = countZeros b := by
  exact countZeros_set_row hr (zCount_set hc h0 hv)

theorem setCell_of_col_le (b : Board) {r c : Nat} (v : Nat)
    (h : (b.getD r []).length ≤ c) : setCell b r c v = b := by
  unfold setCell
  rw [List.set_eq_of_length_le h, set_getD_self]

theorem pair_ne_components {r1 c1 r2 c2 : Nat} (h : (r1, c1) ≠ (r2, c2)) :
    r1 ≠ r2 ∨ c1 ≠ c2 := by
  by_contra hcon
  push_neg at hcon
  exact h (by rw [hcon.1, hcon.2])

theorem sub_mod_eq_mul_div (n m : Nat) : n - n % m = m * (n / m) := by
  have := Nat.div_add_mod n m
  omega

theorem isSafe_hit {b : Board} {r c v : Nat} (r' c' : Nat) (hv : getCell b r' c' = v)
    (hr' : r' < b.length) (hc' : c' < b.length)
    (hunit : r' = r ∨ c' = c ∨
      (r' / sqrtN b.length = r / sqrtN b.length ∧
       c' / sqrtN b.length = c / sqrtN b.length)) :
    isSafe b r c v = false := by
  cases hsf : isSafe b r c v
  · rfl
  · exfalso
    have hs := (isSafe_iff b r c v).mp hsf
    rcases hunit with h | h | h
    · subst h
      exact hs.1 c' hc' hv
    · subst h
      exact hs.2.1 r' hr' hv
    · have mpos : 0 < sqrtN b.length := sqrtN_pos (by omega)
      have e1 : r' % sqrtN b.length + (r - r % sqrtN b.length) = r' := by
        have h1 : r - r % sqrtN b.length = sqrtN b.length * (r' / sqrtN b.length) := by
          rw [sub_mod_eq_mul_div, h.1]
        calc r' % sqrtN b.length + (r - r % sqrtN b.length)
            = r' % sqrtN b.length + sqrtN b.length * (r' / sqrtN b.length) := by rw [h1]
          _ = r' := by rw [Nat.add_comm]; exact Nat.div_add_mod r' (sqrtN b.length)
      have e2 : c' % sqrtN b.length + (c - c % sqrtN b.length) = c' := by
        have h1 : c - c % sqrtN b.length = sqrtN b.length * (c' / sqrtN b.length) := by
          rw [sub_mod_eq_mul_div, h.2]
        calc c' % sqrtN b.length + (c - c % sqrtN b.length)
            = c' % sqrtN b.length + sqrtN b.length * (c' / sqrtN b.length) := by rw [h1]
          _ = c' := by rw [Nat.add_comm]; exact Nat.div_add_mod c' (sqrtN b.length)
      have h3 := hs.2.2 (r' % sqrtN b.length) (c' % sqrtN b.length)
        (Nat.mod_lt _ mpos) (Nat.mod_lt _ mpos)
      rw [e1, e2] at h3
      exact h3 hv

theorem row_len {size : Nat} {b : Board} (hsq : Square size b) {r : Nat} (hr : r < size) :
    (b.getD r []).length = size := by
  have hrb : r < b.length := by rw [hsq.1]; exact hr
  exact hsq.2 _ (getD_mem_of_lt b [] hrb)

theorem noConflicts_setCell {size : Nat} {b : Board} {r c num : Nat}
    (hsq : Square size b) (hnc : NoConflicts size b)
    (hr : r < size) (hc : c < size) (h0 : getCell b r c = 0)
    (hsafe : isSafe b r c num = true) (hnum : num ≠ 0) :
    NoConflicts size (setCell b r c num) := by
  have blen : b.length = size := hsq.1
  have hrlen : r < b.length := by rw [blen]; exact hr
  have hclen : c < (b.getD r []).length := by rw [row_len hsq hr]; exact hc
  intro r1 c1 r2 c2 h1 h2 h3 h4 hne hunit hnz heq
  by_cases e1 : (r1, c1) = (r, c)
  · by_cases e2 : (r2, c2) = (r, c)
    · exact hne (e1.trans e2.symm)
    · obtain ⟨er, ec⟩ := Prod.mk.injEq r1 c1 r c ▸ e1
      subst r1; subst c1
      have v1 : getCell (setCell b r c num) r c = num := getCell_setCell_self b num hrlen hclen
      have v2 : getCell (setCell b r c num) r2 c2 = getCell b r2 c2 := by
        refine getCell_setCell_ne b num ?_
        rcases pair_ne_components e2 with h | h
        · exact Or.inl (Ne.symm h)
        · exact Or.inr (Ne.symm h)
      rw [v1, v2] at heq
      have hhit : isSafe b r c num = false := by
        refine isSafe_hit r2 c2 heq.symm (by rw [blen]; exact h3) (by rw [blen]; exact h4) ?_
        rw [blen]
        rcases hunit with h | h | h
        · exact Or.inl h.symm
        · exact Or.inr (Or.inl h.symm)
        · exact Or.inr (Or.inr ⟨h.1.symm, h.2.symm⟩)
      rw [hsafe] at hhit
      exact Bool.noConfusion hhit
  · have v1 : getCell (setCell b r c num) r1 c1 = getCell b r1 c1 := by
      refine getCell_setCell_ne b num ?_
      rcases pair_ne_components e1 with h | h
      · exact Or.inl (Ne.symm h)
      · exact Or.inr (Ne.symm h)
    by_cases e2 : (r2, c2) = (r, c)
    · obtain ⟨er, ec⟩ := Prod.mk.injEq r2 c2 r c ▸ e2
      subst r2; subst c2
      have v2 : getCell (setCell b r c num) r c = num := getCell_setCell_self b num hrlen hclen
      rw [v1, v2] at heq
      have hhit : isSafe b r c num = false := by
        refine isSafe_hit r1 c1 heq (by rw [blen]; exact h1) (by rw [blen]; exact h2) ?_
        rw [blen]
        exact hunit
      rw [hsafe] at hhit
      exact Bool.noConfusion hhit
    · have v2 : getCell (setCell b r c num) r2 c2 = getCell b r2 c2 := by
        refine getCell_setCell_ne b num ?_
        rcases pair_ne_components e2 with h | h
        · exact Or.inl (Ne.symm h)
        · exact Or.inr (Ne.symm h)
      rw [v1] at hnz heq
      rw [v2] at heq
      exact hnc r1 c1 r2 c2 h1 h2 h3 h4 hne hunit hnz heq

theorem valuesLe_setCell {size : Nat} {b : Board} {v : Nat}
    (hvl : ValuesLe size b) (hv : v ≤ size) (r c : Nat) :
    ValuesLe size (setCell b r c v) := by
  intro x y
  by_cases hr : r < b.length
  · by_cases hc : c < (b.getD r []).length
    · by_cases hp : (x, y) = (r, c)
      · have hx : x = r := (Prod.mk.injEq ..).mp hp |>.1
        have hy : y = c := (Prod.mk.injEq ..).mp hp |>.2
        subst hx; subst hy
        rw [getCell_setCell_self b v hr hc]
        exact hv
      · rw [getCell_setCell_ne b v (by
          rcases pair_ne_components hp with h | h
          · exact Or.inl (Ne.symm h)
          · exact Or.inr (Ne.symm h))]
        exact hvl x y
    · rw [setCell_of_col_le b v (Nat.le_of_not_lt hc)]
      exact hvl x y
  · rw [setCell_of_length_le b c v (Nat.le_of_not_lt hr)]
    exact hvl x y

theorem tryNumsF_frame (f : Board → Nat → Bool × Board × Nat) (r c : Nat)
    (hf : ∀ b s, FrameSpec b (f b s)) :
    ∀ (nums : List Nat) (b : Board) (s : Nat), getCell b r c = 0 →
      FrameSpec b (tryNumsF f r c b nums s) := by
  intro nums
  induction nums with
  | nil =>
    intro b s h0
    exact ⟨fun r' c' _ => rfl, fun _ => rfl⟩
  | cons num rest ih =>
    intro b s h0
    by_cases hs : isSafe b r c num
    · rw [tryNumsF, if_pos hs]
      rcases hfb : f (setCell b r c num) s with ⟨ok2, b2, s2⟩
      have hspec := hf (setCell b r c num) s
      rw [hfb] at hspec
      cases ok2 with
      | true =>
        refine ⟨fun r' c' hnz => ?_, fun hfalse => Bool.noConfusion hfalse⟩
        have hne : r ≠ r' ∨ c ≠ c' := by
          by_contra hcon
          push_neg at hcon
          rw [← hcon.1, ← hcon.2] at hnz
          exact hnz h0
        have e1 : getCell (setCell b r c num) r' c' = getCell b r' c' :=
          getCell_setCell_ne b num hne
        have e2 := hspec.1 r' c' (by rw [e1]; exact hnz)
        simpa [e1] using e2
      | false =>
        have hb2 : b2 = setCell b r c num := hspec.2 rfl
        have hback : setCell b2 r c 0 = b := by
          rw [hb2, setCell_setCell, setCell_zero b h0]
        simp only [hback]
        exact ih b s2 h0
    · rw [tryNumsF, if_neg hs]
      exact ih b s h0

theorem solveAux_frame (size : Nat) :
    ∀ (fuel : Nat) (b : Board) (s : Nat), FrameSpec b (solveAux size fuel b s) := by
  intro fuel
  induction fuel with
  | zero =>
    intro b s
    exact ⟨fun r' c' _ => rfl, fun _ => rfl⟩
  | succ fuel ih =>
    intro b s
    cases hfe : findEmpty size b with
    | none =>
      have hred : solveAux size (fuel + 1) b s = (true, b, s + 1) := by
        rw [solveAux, hfe]
      rw [hred]
      exact ⟨fun r' c' _ => rfl, fun hfalse => Bool.noConfusion hfalse⟩
    | some p =>
      obtain ⟨r, c⟩ := p
      have hred : solveAux size (fuel + 1) b s =
          tryNumsF (solveAux size fuel) r c b (List.range' 1 size) (s + 1) := by
        rw [solveAux, hfe]
      rw [hred]
      exact tryNumsF_frame (solveAux size fuel) r c (fun b' s' => ih b' s')
        (List.range' 1 size) b (s + 1) (findEmpty_some hfe).2.2

theorem tryNumsF_spec (size : Nat) (f : Board → Nat → Bool × Board × Nat) (r c : Nat)
    (hf : ∀ b s, Pre size b → SolveSpec size b (f b s)) :
    ∀ (nums : List Nat) (b : Board) (s : Nat), Pre size b →
      r < size → c < size → getCell b r c = 0 →
      (∀ n ∈ nums, 1 ≤ n ∧ n ≤ size) →
      SolveSpec size b (tryNumsF f r c b nums s) := by
  intro nums
  induction nums with
  | nil =>
    intro b s hpre hr hc h0 hnums
    exact ⟨hpre, fun r' c' _ => rfl, fun _ => rfl, fun htrue => Bool.noConfusion htrue⟩
  | cons num rest ih =>
    intro b s hpre hr hc h0 hnums
    obtain ⟨hsq, hnc, hvl⟩ := hpre
    by_cases hs : isSafe b r c num
    · rw [tryNumsF, if_pos hs]
      have hnum1 : 1 ≤ num := (hnums num (List.mem_cons_self ..)).1
      have hnum2 : num ≤ size := (hnums num (List.mem_cons_self ..)).2
      have hpre1 : Pre size (setCell b r c num) :=
        ⟨square_setCell hsq r c num,
         noConflicts_setCell hsq hnc hr hc h0 hs (by omega),
         valuesLe_setCell hvl hnum2 r c⟩
      rcases hfb : f (setCell b r c num) s with ⟨ok2, b2, s2⟩
      have hspec := hf (setCell b r c num) s hpre1
      rw [hfb] at hspec
      cases ok2 with
      | true =>
        refine ⟨hspec.1, fun r' c' hnz => ?_, fun hfalse => Bool.noConfusion hfalse,
          fun _ => hspec.2.2.2 rfl⟩
        have hne : r ≠ r' ∨ c ≠ c' := by
          by_contra hcon
          push_neg at hcon
          rw [← hcon.1, ← hcon.2] at hnz
          exact hnz h0
        have e1 : getCell (setCell b r c num) r' c' = getCell b r' c' :=
          getCell_setCell_ne b num hne
        have e2 := hspec.2.1 r' c' (by rw [e1]; exact hnz)
        simpa [e1] using e2
      | false =>
        have hb2 : b2 = setCell b r c num := hspec.2.2.1 rfl
        have hback : setCell b2 r c 0 = b := by
          rw [hb2, setCell_setCell, setCell_zero b h0]
        simp only [hback]
        exact ih b s2 ⟨hsq, hnc, hvl⟩ hr hc h0
          (fun n hn => hnums n (List.mem_cons_of_mem _ hn))
    · rw [tryNumsF, if_neg hs]
      exact ih b s ⟨hsq, hnc, hvl⟩ hr hc h0
        (fun n hn => hnums n (List.mem_cons_of_mem _ hn))

theorem solveAux_spec (size : Nat) :
    ∀ (fuel : Nat) (b : Board) (s : Nat), Pre size b →
      SolveSpec size b (solveAux size fuel b s) := by
  intro fuel
  induction fuel with
  | zero =>
    intro b s hpre
    exact ⟨hpre, fun r' c' _ => rfl, fun _ => rfl, fun htrue => Bool.noConfusion htrue⟩
  | succ fuel ih =>
    intro b s hpre
    cases hfe : findEmpty size b with
    | none =>
      have hred : solveAux size (fuel + 1) b s = (true, b, s + 1) := by
        rw [solveAux, hfe]
      rw [hred]
      refine ⟨hpre, fun r' c' _ => rfl, fun hfalse => Bool.noConfusion hfalse, fun _ => ?_⟩
      exact (findEmpty_eq_none_iff size b).mp hfe
    | some p =>
      obtain ⟨r, c⟩ := p
      have hred : solveAux size (fuel + 1) b s =
          tryNumsF (solveAux size fuel) r c b (List.range' 1 size) (s + 1) := by
        rw [solveAux, hfe]
      rw [hred]
      obtain ⟨hr, hc, h0⟩ := findEmpty_some hfe
      refine tryNumsF_spec size (solveAux size fuel) r c
        (fun b' s' hp => ih b' s' hp) (List.range' 1 size) b (s + 1) hpre hr hc h0 ?_
      intro n hn
      have := List.mem_range'_1.mp hn
      omega

theorem tryNumsF_congr (f f' : Board → Nat → Bool × Board × Nat) (r c : Nat) (b0 : Board)
    (h0 : getCell b0 r c = 0)
    (hframe : ∀ s num, num ≠ 0 → (f (setCell b0 r c num) s).1 = false →
      (f (setCell b0 r c num) s).2.1 = setCell b0 r c num)
    (hagree : ∀ s num, num ≠ 0 → f (setCell b0 r c num) s = f' (setCell b0 r c num) s) :
    ∀ (nums : List Nat) (s : Nat), (∀ n ∈ nums, n ≠ 0) →
      tryNumsF f r c b0 nums s = tryNumsF f' r c b0 nums s := by
  intro nums
  induction nums with
  | nil => intro s _; rfl
  | cons num rest ih =>
    intro s hnz
    have hnum : num ≠ 0 := hnz num (List.mem_cons_self ..)
    have hrest : ∀ n ∈ rest, n ≠ 0 := fun n hn => hnz n (List.mem_cons_of_mem _ hn)
    by_cases hs : isSafe b0 r c num
    · rw [tryNumsF, tryNumsF, if_pos hs, if_pos hs, ← hagree s num hnum]
      rcases hfb : f (setCell b0 r c num) s with ⟨ok2, b2, s2⟩
      cases ok2 with
      | true => rfl
      | false =>
        have hb2 : b2 = setCell b0 r c num := by
          have := hframe s num hnum (by rw [hfb])
          rw [hfb] at this
          exact this
        have hback : setCell b2 r c 0 = b0 := by
          rw [hb2, setCell_setCell, setCell_zero b0 h0]
        show tryNumsF f r c (setCell b2 r c 0) rest s2 =
          tryNumsF f' r c (setCell b2 r c 0) rest s2
        rw [hback]
        exact ih s2 hrest
    · rw [tryNumsF, tryNumsF, if_neg hs, if_neg hs]
      exact ih s hrest

theorem solveAux_fuel_eq (size : Nat) :
    ∀ (f1 f2 : Nat) (b : Board) (s : Nat), Square size b →
      countZeros b < f1 → countZeros b < f2 →
      solveAux size f1 b s = solveAux size f2 b s := by
  intro f1
  induction f1 with
  | zero =>
    intro f2 b s _ h1 _
    omega
  | succ f1 ih =>
    intro f2 b s hsq h1 h2
    cases f2 with
    | zero => omega
    | succ f2 =>
      cases hfe : findEmpty size b with
      | none =>
        have e1 : solveAux size (f1 + 1) b s = (true, b, s + 1) := by rw [solveAux, hfe]
        have e2 : solveAux size (f2 + 1) b s = (true, b, s + 1) := by rw [solveAux, hfe]
        rw [e1, e2]
      | some p =>
        obtain ⟨r, c⟩ := p
        obtain ⟨hr, hc, h0⟩ := findEmpty_some hfe
        have e1 : solveAux size (f1 + 1) b s =
            tryNumsF (solveAux size f1) r c b (List.range' 1 size) (s + 1) := by
          rw [solveAux, hfe]
        have e2 : solveAux size (f2 + 1) b s =
            tryNumsF (solveAux size f2) r c b (List.range' 1 size) (s + 1) := by
          rw [solveAux, hfe]
        rw [e1, e2]
        have hrb : r < b.length := by rw [hsq.1]; exact hr
        have hcb : c < (b.getD r []).length := by rw [row_len hsq hr]; exact hc
        refine tryNumsF_congr (solveAux size f1) (solveAux size f2) r c b h0
          (fun s' num hnum hf => (solveAux_frame size f1 (setCell b r c num) s').2 hf)
          (fun s' num hnum => ?_) (List.range' 1 size) (s + 1)
          (fun n hn => by have := List.mem_range'_1.mp hn; omega)
        have hcount := countZeros_setCell hrb hcb h0 hnum
        exact ih f2 (setCell b r c num) s' (square_setCell hsq r c num) (by omega) (by omega)

theorem tryNumsAF_proj (f : Board → Nat → List Board → Bool × Board × Nat × List Board)
    (g : Board → Nat → Bool × Board × Nat) (r c : Nat)
    (hfg : ∀ b s tr, ((f b s tr).1, (f b s tr).2.1, (f b s tr).2.2.1) = g b s) :
    ∀ (nums : List Nat) (b : Board) (s : Nat) (tr : List Board),
      ((tryNumsAF f r c b nums s tr).1, (tryNumsAF f r c b nums s tr).2.1,
        (tryNumsAF f r c b nums s tr).2.2.1) = tryNumsF g r c b nums s := by
  intro nums
  induction nums with
  | nil => intro b s tr; rfl
  | cons num rest ih =>
    intro b s tr
    by_cases hs : isSafe b r c num
    · rw [tryNumsAF, tryNumsF, if_pos hs, if_pos hs]
      rcases hfa : f (setCell b r c num) s (tr ++ [setCell b r c num]) with ⟨oka, ba, sa, tra⟩
      have hg : g (setCell b r c num) s = (oka, ba, sa) := by
        rw [← hfg (setCell b r c num) s (tr ++ [setCell b r c num]), hfa]
      rw [hg]
      cases oka with
      | true => rfl
      | false => exact ih (setCell ba r c 0) sa (tra ++ [setCell ba r c 0])
    · rw [tryNumsAF, tryNumsF, if_neg hs, if_neg hs]
      exact ih b s tr

theorem solveAnimAux_proj (size : Nat) :
    ∀ (fuel : Nat) (b : Board) (s : Nat) (tr : List Board),
      ((solveAnimAux size fuel b s tr).1, (solveAnimAux size fuel b s tr).2.1,
        (solveAnimAux size fuel b s tr).2.2.1) = solveAux size fuel b s := by
  intro fuel
  induction fuel with
  | zero => intro b s tr; rfl
  | succ fuel ih =>
    intro b s tr
    cases hfe : findEmpty size b with
    | none =>
      have e1 : solveAnimAux size (fuel + 1) b s tr = (true, b, s + 1, tr) := by
        rw [solveAnimAux, hfe]
      have e2 : solveAux size (fuel + 1) b s = (true, b, s + 1) := by
        rw [solveAux, hfe]
      rw [e1, e2]
    | some p =>
      obtain ⟨r, c⟩ := p
      have e1 : solveAnimAux size (fuel + 1) b s tr =
          tryNumsAF (solveAnimAux size fuel) r c b (List.range' 1 size) (s + 1) tr := by
        rw [solveAnimAux, hfe]
      have e2 : solveAux size (fuel + 1) b s =
          tryNumsF (solveAux size fuel) r c b (List.range' 1 size) (s + 1) := by
        rw [solveAux, hfe]
      rw [e1, e2]
      exact tryNumsAF_proj (solveAnimAux size fuel) (solveAux size fuel) r c
        (fun b' s' tr' => ih b' s' tr') (List.range' 1 size) b (s + 1) tr

theorem getD_of_length_le {α : Type} (l : List α) {n : Nat} (d : α) (h : l.length ≤ n) :
    l.getD n d = d := by
  rw [List.getD_eq_getElem?_getD, List.getElem?_eq_none h]
  rfl

theorem getCell_ne_zero_bounds {b : Board} {r c : Nat} (h : getCell b r c ≠ 0) :
    r < b.length ∧ c < (b.getD r []).length := by
  constructor
  · by_contra hr
    exact h (by
      unfold getCell
      rw [getD_of_length_le b [] (Nat.le_of_not_lt hr)]
      rfl)
  · by_contra hc
    exact h (by
      unfold getCell
      rw [getD_of_length_le _ 0 (Nat.le_of_not_lt hc)])

theorem isValidGo_spec (b : Board) :
    ∀ ps : List (Nat × Nat), (isValidGo b ps).2 = b ∧
      ((isValidGo b ps).1 = true ↔ ∀ p ∈ ps, cellOk b p.1 p.2) := by
  intro ps
  induction ps with
  | nil =>
    refine ⟨rfl, ?_⟩
    simp [isValidGo]
  | cons p rest ih =>
    obtain ⟨r, c⟩ := p
    by_cases hnum : getCell b r c ≠ 0
    · cases hsafe : isSafe (setCell b r c 0) r c (getCell b r c) with
      | false =>
        have hred : isValidGo b ((r, c) :: rest) =
            (false, setCell (setCell b r c 0) r c (getCell b r c)) := by
          rw [isValidGo]
          simp only [hsafe, Bool.not_false, if_pos]
          rw [if_pos hnum]
        rw [hred]
        refine ⟨restore_eq b r c, ?_⟩
        constructor
        · intro h
          exact Bool.noConfusion h
        · intro hall
          have := hall (r, c) (List.mem_cons_self ..) hnum
          rw [hsafe] at this
          exact Bool.noConfusion this
      | true =>
        have hred : isValidGo b ((r, c) :: rest) = isValidGo b rest := by
          rw [isValidGo]
          simp only [hsafe, Bool.not_true, Bool.false_eq_true, if_false]
          rw [restore_eq b r c, if_pos hnum]
        rw [hred]
        refine ⟨ih.1, ?_⟩
        rw [ih.2]
        constructor
        · intro hall p hp
          rcases List.mem_cons.mp hp with h | h
          · subst h
            intro _
            exact hsafe
          · exact hall p h
        · intro hall p hp
          exact hall p (List.mem_cons_of_mem _ hp)
    · have hred : isValidGo b ((r, c) :: rest) = isValidGo b rest := by
        rw [isValidGo]
        simp only [hnum, if_false]
      rw [hred]
      refine ⟨ih.1, ?_⟩
      rw [ih.2]
      constructor
      · intro hall p hp
        rcases List.mem_cons.mp hp with h | h
        · subst h
          intro hcon
          exact absurd hcon hnum
        · exact hall p h
      · intro hall p hp
        exact hall p (List.mem_cons_of_mem _ hp)

theorem isValidRun_board (b : Board) : (isValidRun b).2 = b :=
  (isValidGo_spec b (allCells b.length)).1

theorem isValid_iff (b : Board) :
    isValidSudoku b = true ↔ ∀ r c, r < b.length → c < b.length → cellOk b r c := by
  unfold isValidSudoku isValidRun
  rw [(isValidGo_spec b (allCells b.length)).2]
  constructor
  · intro h r c hr hc
    exact h (r, c) (mem_allCells.mpr ⟨hr, hc⟩)
  · intro h p hp
    exact h p.1 p.2 (mem_allCells.mp hp).1 (mem_allCells.mp hp).2

theorem box_cell_div {m q i : Nat} (hm : 0 < m) (hi : i < m) : (m * q + i) / m = q := by
  rw [Nat.mul_add_div hm, Nat.div_eq_of_lt hi]
  omega

theorem box_cell_lt {m q i : Nat} (hi : i < m) (hq : q < m) : m * q + i < m * m := by
  have h2 : m * (q + 1) = m * q + m := by ring
  have h3 : m * (q + 1) ≤ m * m := Nat.mul_le_mul_left m hq
  omega

theorem noConflicts_of_isValid {b : Board} (h : isValidSudoku b = true) :
    NoConflicts b.length b := by
  intro r1 c1 r2 c2 h1 h2 h3 h4 hne hunit hnz heq
  have hok := (isValid_iff b).mp h r1 c1 h1 h2 hnz
  have hb1 : (setCell b r1 c1 0).length = b.length := setCell_length ..
  have hne2 : r1 ≠ r2 ∨ c1 ≠ c2 := pair_ne_components hne
  have hcell : getCell (setCell b r1 c1 0) r2 c2 = getCell b r2 c2 := by
    refine getCell_setCell_ne b 0 ?_
    rcases hne2 with h | h
    · exact Or.inl h
    · exact Or.inr h
  have hhit : isSafe (setCell b r1 c1 0) r1 c1 (getCell b r1 c1) = false := by
    refine isSafe_hit (v := getCell b r1 c1) r2 c2 ?_ ?_ ?_ ?_
    · rw [hcell]; exact heq.symm
    · rw [hb1]; exact h3
    · rw [hb1]; exact h4
    · rw [hb1]
      rcases hunit with h | h | h
      · exact Or.inl h.symm
      · exact Or.inr (Or.inl h.symm)
      · exact Or.inr (Or.inr ⟨h.1.symm, h.2.symm⟩)
  rw [hok] at hhit
  exact Bool.noConfusion hhit

theorem isValid_of_noConflicts {b : Board}
    (hms : sqrtN b.length * sqrtN b.length = b.length)
    (hnc : NoConflicts b.length b) : isValidSudoku b = true := by
  rw [isValid_iff]
  intro r c hr hc hnz
  obtain ⟨hrb, hcb⟩ := getCell_ne_zero_bounds hnz
  have hzero : getCell (setCell b r c 0) r c = 0 := getCell_setCell_self b 0 hrb hcb
  have hb1 : (setCell b r c 0).length = b.length := setCell_length ..
  have hunch : ∀ x y, (x, y) ≠ (r, c) →
      getCell (setCell b r c 0) x y = getCell b x y := by
    intro x y hxy
    refine getCell_setCell_ne b 0 ?_
    rcases pair_ne_components hxy with h | h
    · exact Or.inl (Ne.symm h)
    · exact Or.inr (Ne.symm h)
  cases hsf : isSafe (setCell b r c 0) r c (getCell b r c) with
  | true => rfl
  | false =>
    exfalso
    have hiff := isSafe_iff (setCell b r c 0) r c (getCell b r c)
    rw [hsf] at hiff
    have hnall : ¬((∀ x, x < (setCell b r c 0).length →
          getCell (setCell b r c 0) r x ≠ getCell b r c) ∧
        (∀ x, x < (setCell b r c 0).length →
          getCell (setCell b r c 0) x c ≠ getCell b r c) ∧
        (∀ i j, i < sqrtN (setCell b r c 0).length →
          j < sqrtN (setCell b r c 0).length →
          getCell (setCell b r c 0)
            (i + (r - r % sqrtN (setCell b r c 0).length))
            (j + (c - c % sqrtN (setCell b r c 0).length)) ≠ getCell b r c)) := by
      intro hcon
      exact Bool.noConfusion (hiff.mpr hcon)
    rw [hb1] at hnall
    have m0 : 0 < sqrtN b.length := sqrtN_pos (by omega)
    rcases Classical.not_and_iff_or_not_not.mp hnall with hA | hBC
    · push_neg at hA
      obtain ⟨x, hx, hvx⟩ := hA
      have hpne : (r, x) ≠ (r, c) := by
        intro hcon
        have : x = c := congrArg Prod.snd hcon
        subst this
        rw [hzero] at hvx
        exact hnz hvx.symm
      rw [hunch r x hpne] at hvx
      have hx2 : x ≠ c := by
        intro hcon
        exact hpne (by rw [hcon])
      exact hnc r c r x hr hc hr hx (by
          intro hcon
          exact hx2 (congrArg Prod.snd hcon).symm) (Or.inl rfl) hnz hvx.symm
    · rcases Classical.not_and_iff_or_not_not.mp hBC with hB | hC
      · push_neg at hB
        obtain ⟨x, hx, hvx⟩ := hB
        have hpne : (x, c) ≠ (r, c) := by
          intro hcon
          have : x = r := congrArg Prod.fst hcon
          subst this
          rw [hzero] at hvx
          exact hnz hvx.symm
        rw [hunch x c hpne] at hvx
        have hx2 : x ≠ r := by
          intro hcon
          exact hpne (by rw [hcon])
        exact hnc r c x c hr hc hx hc (by
            intro hcon
            exact hx2 (congrArg Prod.fst hcon).symm) (Or.inr (Or.inl rfl)) hnz hvx.symm
      · push_neg at hC
        obtain ⟨i, j, hi, hj, hvx⟩ := hC
        have er : i + (r - r % sqrtN b.length) =
            sqrtN b.length * (r / sqrtN b.length) + i := by
          rw [sub_mod_eq_mul_div]
          omega
        have ec : j + (c - c % sqrtN b.length) =
            sqrtN b.length * (c / sqrtN b.length) + j := by
          rw [sub_mod_eq_mul_div]
          omega
        rw [er, ec] at hvx
        have hrq : r / sqrtN b.length < sqrtN b.length := by
          have : r < sqrtN b.length * sqrtN b.length := by rw [hms]; exact hr
          exact Nat.div_lt_of_lt_mul (by rw [Nat.mul_comm] at this; exact this)
        have hcq : c / sqrtN b.length < sqrtN b.length := by
          have : c < sqrtN b.length * sqrtN b.length := by rw [hms]; exact hc
          exact Nat.div_lt_of_lt_mul (by rw [Nat.mul_comm] at this; exact this)
        have hrlt : sqrtN b.length * (r / sqrtN b.length) + i < b.length :=
          lt_of_lt_of_eq (box_cell_lt hi hrq) hms
        have hclt : sqrtN b.length * (c / sqrtN b.length) + j < b.length :=
          lt_of_lt_of_eq (box_cell_lt hj hcq) hms
        have hpne : (sqrtN b.length * (r / sqrtN b.length) + i,
            sqrtN b.length * (c / sqrtN b.length) + j) ≠ (r, c) := by
          intro hcon
          have hx := congrArg Prod.fst hcon
          have hy := congrArg Prod.snd hcon
          simp only at hx hy
          rw [hx, hy, hzero] at hvx
          exact hnz hvx.symm
        rw [hunch _ _ hpne] at hvx
        refine hnc r c (sqrtN b.length * (r / sqrtN b.length) + i)
          (sqrtN b.length * (c / sqrtN b.length) + j) hr hc hrlt hclt
          (Ne.symm hpne) (Or.inr (Or.inr ⟨?_, ?_⟩)) hnz hvx.symm
        · rw [box_cell_div m0 hi]
        · rw [box_cell_div m0 hj]

theorem NoConflicts.clearP {size : Nat} {b : Board} (hnc : NoConflicts size b)
    (r c : Nat) : NoConflicts size (setCell b r c 0) := by
  intro r1 c1 r2 c2 h1 h2 h3 h4 hne hunit hnz heq
  by_cases hrb : r < b.length
  · by_cases hcb : c < (b.getD r []).length
    · have hzero : getCell (setCell b r c 0) r c = 0 := getCell_setCell_self b 0 hrb hcb
      by_cases e1 : (r1, c1) = (r, c)
      · obtain ⟨er, ec⟩ := Prod.mk.injEq r1 c1 r c ▸ e1
        subst r1; subst c1
        rw [hzero] at hnz
        exact hnz rfl
      · have v1 : getCell (setCell b r c 0) r1 c1 = getCell b r1 c1 := by
          refine getCell_setCell_ne b 0 ?_
          rcases pair_ne_components e1 with h | h
          · exact Or.inl (Ne.symm h)
          · exact Or.inr (Ne.symm h)
        by_cases e2 : (r2, c2) = (r, c)
        · obtain ⟨er, ec⟩ := Prod.mk.injEq r2 c2 r c ▸ e2
          subst r2; subst c2
          rw [hzero] at heq
          rw [v1] at hnz heq
          exact hnz heq
        · have v2 : getCell (setCell b r c 0) r2 c2 = getCell b r2 c2 := by
            refine getCell_setCell_ne b 0 ?_
            rcases pair_ne_components e2 with h | h
            · exact Or.inl (Ne.symm h)
            · exact Or.inr (Ne.symm h)
          rw [v1] at hnz heq
          rw [v2] at heq
          exact hnc r1 c1 r2 c2 h1 h2 h3 h4 hne hunit hnz heq
    · rw [setCell_of_col_le b 0 (Nat.le_of_not_lt hcb)] at hnz heq
      exact hnc r1 c1 r2 c2 h1 h2 h3 h4 hne hunit hnz heq
  · rw [setCell_of_length_le b c 0 (Nat.le_of_not_lt hrb)] at hnz heq
    exact hnc r1 c1 r2 c2 h1 h2 h3 h4 hne hunit hnz heq

theorem nzCount_set {l : List Nat} {c : Nat} {v : Nat}
    (hc : c < l.length) (h0 : l.getD c 0 = 0) (hv : v ≠ 0) :
    nzCount (l.set c v) = nzCount l + 1 := by
  induction l generalizing c with
  | nil => simp at hc
  | cons x xs ih =>
    cases c with
    | zero =>
      simp [List.getD] at h0
      subst h0
      simp [nzCount, hv]
      omega
    | succ c =>
      have hc' : c < xs.length := by simpa using hc
      have h0' : xs.getD c 0 = 0 := by simpa [List.getD] using h0
      have := ih hc' h0'
      simp [nzCount, List.set]
      omega

theorem nzCount_unset {l : List Nat} {c : Nat}
    (hc : c < l.length) (h0 : l.getD c 0 ≠ 0) :
    nzCount (l.set c 0) + 1 = nzCount l := by
  induction l generalizing c with
  | nil => simp at hc
  | cons x xs ih =>
    cases c with
    | zero =>
      simp [List.getD] at h0
      simp [nzCount, h0]
      omega
    | succ c =>
      have hc' : c < xs.length := by simpa using hc
      have h0' : xs.getD c 0 ≠ 0 := by simpa [List.getD] using h0
      have := ih hc' h0'
      simp [nzCount, List.set]
      omega

theorem countNonzero_set_row {b : Board} {r : Nat} (row2 : List Nat) (d : Int)
    (hr : r < b.length) (h : (nzCount row2 : Int) = nzCount (b.getD r []) + d) :
    (countNonzero (b.set r row2) : Int) = countNonzero b + d := by
  induction b generalizing r with
  | nil => simp at hr
  | cons x xs ih =>
    cases r with
    | zero =>
      simp [List.getD] at h
      simp [countNonzero, List.set]
      omega
    | succ r =>
      have hr' : r < xs.length := by simpa using hr
      have h' : (nzCount row2 : Int) = nzCount (xs.getD r []) + d := by
        simpa [List.getD] using h
      have := ih hr' h'
      simp [countNonzero, List.set] at this ⊢
      omega

theorem countNonzero_setCell {b : Board} {r c v : Nat}
    (hr : r < b.length) (hc : c < (b.getD r []).length)
    (h0 : getCell b r c = 0) (hv : v ≠ 0) :
    countNonzero (setCell b r c v) = countNonzero b + 1 := by
  have h := countNonzero_set_row ((b.getD r []).set c v) 1 hr
    (by rw [nzCount_set hc h0 hv]; push_cast; ring)
  have h2 : (countNonzero (setCell b r c v) : Int) = countNonzero b + 1 := h
  exact_mod_cast h2

theorem countNonzero_clearCell {b : Board} {r c : Nat}
    (hr : r < b.length) (hc : c < (b.getD r []).length)
    (h0 : getCell b r c ≠ 0) :
    countNonzero (setCell b r c 0) + 1 = countNonzero b := by
  have h := countNonzero_set_row ((b.getD r []).set c 0) (-1) hr
    (by
      have := nzCount_unset hc h0
      push_cast
      omega)
  have h2 : (countNonzero (setCell b r c 0) : Int) = countNonzero b - 1 := h
  omega

theorem getD_map_range (l : List Nat) :
    (List.range l.length).map (fun t => l.getD t 0) = l := by
  refine List.ext_getElem (by simp) fun n h1 h2 => ?_
  rw [List.getElem_map, List.getElem_range]
  rw [List.getD_eq_getElem?_getD, List.getElem?_eq_getElem h2]
  rfl

theorem nodup_map_range_ne {n : Nat} {f : Nat → Nat}
    (h : ((List.range n).map f).Nodup) {t1 t2 : Nat}
    (h1 : t1 < n) (h2 : t2 < n) (hne : t1 ≠ t2) : f t1 ≠ f t2 := by
  intro hcon
  have hb1 : t1 < ((List.range n).map f).length := by simpa using h1
  have hb2 : t2 < ((List.range n).map f).length := by simpa using h2
  have e1 : ((List.range n).map f)[t1] = f t1 := by
    rw [List.getElem_map, List.getElem_range]
  have e2 : ((List.range n).map f)[t2] = f t2 := by
    rw [List.getElem_map, List.getElem_range]
  have h3 : ((List.range n).map f)[t1] = ((List.range n).map f)[t2] := by
    rw [e1, e2, hcon]
  exact hne (h.getElem_inj_iff.mp h3)

theorem getD_replicate {α : Type} (n : Nat) (x d : α) (r : Nat) :
    (List.replicate n x).getD r d = if r < n then x else d := by
  induction n generalizing r with
  | zero => simp [List.getD]
  | succ n ih =>
    cases r with
    | zero => simp [List.replicate, List.getD]
    | succ r =>
      simp only [List.replicate, List.getD_cons_succ]
      rw [ih]
      by_cases h : r < n
      · rw [if_pos h, if_pos (by omega)]
      · rw [if_neg h, if_neg (by omega)]

theorem getCell_empty (size r c : Nat) :
    getCell (List.replicate size (List.replicate size 0)) r c = 0 := by
  unfold getCell
  rw [getD_replicate]
  by_cases hr : r < size
  · rw [if_pos hr, getD_replicate]
    by_cases hc : c < size
    · rw [if_pos hc]
    · rw [if_neg hc]
  · rw [if_neg hr]
    rfl

theorem empty_square (size : Nat) :
    Square size (List.replicate size (List.replicate size 0)) := by
  constructor
  · exact List.length_replicate ..
  · intro row hrow
    rw [(List.mem_replicate.mp hrow).2]
    exact List.length_replicate ..

theorem nzCount_replicate_zero (n : Nat) : nzCount (List.replicate n 0) = 0 := by
  induction n with
  | zero => rfl
  | succ n ih => simp [List.replicate, nzCount, ih]

theorem countNonzero_empty (size : Nat) :
    countNonzero (List.replicate size (List.replicate size 0)) = 0 := by
  unfold countNonzero
  simp [List.map_replicate, List.sum_replicate, nzCount_replicate_zero]

theorem count_set (l : List Nat) (n x v : Nat) (h : n < l.length) :
    (l.set n x).count v + (if l.getD n 0 = v then 1 else 0) =
      l.count v + (if x = v then 1 else 0) := by
  induction l generalizing n with
  | nil => simp at h
  | cons a as ih =>
    cases n with
    | zero =>
      simp only [List.set, List.getD_cons_zero, List.count_cons, beq_iff_eq]
      omega
    | succ n =>
      have h' : n < as.length := by simpa using h
      have := ih n h'
      simp only [List.set, List.getD_cons_succ, List.count_cons, beq_iff_eq]
      omega

theorem swapL_length (l : List Nat) (i j : Nat) : (swapL l i j).length = l.length := by
  simp [swapL]

theorem swapL_perm (l : List Nat) {i j : Nat} (hi : i < l.length) (hj : j < l.length) :
    (swapL l i j).Perm l := by
  by_cases hij : i = j
  · subst hij
    unfold swapL
    rw [List.set_set, set_getD_self]
  · rw [List.perm_iff_count]
    intro v
    have c1 := count_set l i (l.getD j 0) v hi
    have c2 := count_set (l.set i (l.getD j 0)) j (l.getD i 0) v
      (by rw [List.length_set]; exact hj)
    rw [getD_set_ne _ _ _ hij] at c2
    unfold swapL
    omega

theorem shuffleGo_perm (s : Nat → Nat) :
    ∀ (cnt : Nat) (l : List Nat) (k : Nat), cnt < l.length →
      (shuffleGo s l k cnt).1.Perm l := by
  intro cnt
  induction cnt with
  | zero => intro l k _; exact List.Perm.refl l
  | succ cnt ih =>
    intro l k hcnt
    have hj : s k % (cnt + 2) < l.length := by
      have := Nat.mod_lt (s k) (y := cnt + 2) (by omega)
      omega
    have hswap := swapL_perm l hcnt hj
    have hlen : cnt < (swapL l (cnt + 1) (s k % (cnt + 2))).length := by
      rw [swapL_length]
      omega
    rw [shuffleGo]
    exact (ih _ (k + 1) hlen).trans hswap

theorem shuffle_perm (l : List Nat) (s : Nat → Nat) (k : Nat) :
    (shuffle l s k).1.Perm l := by
  unfold shuffle
  by_cases hl : l.length = 0
  · rw [hl]
    exact List.Perm.refl l
  · exact shuffleGo_perm s (l.length - 1) l k (by omega)

theorem fillList_spec (size row col m : Nat) (nums : List Nat)
    (hnz : ∀ i j, i < m → j < m → nums.getD (i * m + j) 0 ≠ 0)
    (hle : ∀ t, nums.getD t 0 ≤ size)
    (hrow : row + m ≤ size) (hcol : col + m ≤ size) :
    ∀ (ps : List (Nat × Nat)) (g : Board),
      Square size g →
      (∀ p ∈ ps, p.1 < m ∧ p.2 < m) →
      (∀ p ∈ ps, getCell g (row + p.1) (col + p.2) = 0) →
      ps.Nodup →
      Square size (fillList row col m nums g ps) ∧
      countNonzero (fillList row col m nums g ps) = countNonzero g + ps.length ∧
      (∀ x y, (∀ p ∈ ps, (x, y) ≠ (row + p.1, col + p.2)) →
        getCell (fillList row col m nums g ps) x y = getCell g x y) ∧
      (∀ p ∈ ps, getCell (fillList row col m nums g ps) (row + p.1) (col + p.2) =
        nums.getD (p.1 * m + p.2) 0) ∧
      (ValuesLe size g → ValuesLe size (fillList row col m nums g ps)) := by
  intro ps
  induction ps with
  | nil =>
    intro g hsq _ _ _
    exact ⟨hsq, by simp [fillList], fun x y _ => rfl, by simp, fun h => h⟩
  | cons p rest ih =>
    intro g hsq hps hzero hnd
    obtain ⟨i, j⟩ := p
    have hi : i < m := (hps (i, j) (List.mem_cons_self ..)).1
    have hj : j < m := (hps (i, j) (List.mem_cons_self ..)).2
    have hval : nums.getD (i * m + j) 0 ≠ 0 := hnz i j hi hj
    have hrin : row + i < size := by omega
    have hcin : col + j < size := by omega
    have hrb : row + i < g.length := by rw [hsq.1]; exact hrin
    have hcb : col + j < (g.getD (row + i) []).length := by
      rw [row_len hsq hrin]; exact hcin
    have h0 : getCell g (row + i) (col + j) = 0 := hzero (i, j) (List.mem_cons_self ..)
    have hnotmem : (i, j) ∉ rest := (List.nodup_cons.mp hnd).1
    have hndrest : rest.Nodup := (List.nodup_cons.mp hnd).2
    have hg1sq : Square size (setCell g (row + i) (col + j) (nums.getD (i * m + j) 0)) :=
      square_setCell hsq ..
    have hg1count : countNonzero (setCell g (row + i) (col + j) (nums.getD (i * m + j) 0)) =
        countNonzero g + 1 := countNonzero_setCell hrb hcb h0 hval
    have hheadne : ∀ p' ∈ rest, (row + i, col + j) ≠ (row + p'.1, col + p'.2) := by
      intro p' hp' hcon
      have e1 : row + i = row + p'.1 := congrArg Prod.fst hcon
      have e2 : col + j = col + p'.2 := congrArg Prod.snd hcon
      have : (i, j) = p' := by
        obtain ⟨a, b⟩ := p'
        simp only at e1 e2
        have : i = a := by omega
        subst this
        have : j = b := by omega
        subst this
        rfl
      rw [this] at hnotmem
      exact hnotmem hp'
    have hrestzero : ∀ p' ∈ rest,
        getCell (setCell g (row + i) (col + j) (nums.getD (i * m + j) 0))
          (row + p'.1) (col + p'.2) = 0 := by
      intro p' hp'
      rw [getCell_setCell_ne g _ (by
        rcases pair_ne_components (hheadne p' hp') with h | h
        · exact Or.inl h
        · exact Or.inr h)]
      exact hzero p' (List.mem_cons_of_mem _ hp')
    obtain ⟨S, C, U, V, L⟩ := ih (setCell g (row + i) (col + j) (nums.getD (i * m + j) 0))
      hg1sq (fun p' hp' => hps p' (List.mem_cons_of_mem _ hp')) hrestzero hndrest
    have hfillred : fillList row col m nums g ((i, j) :: rest) =
        fillList row col m nums
          (setCell g (row + i) (col + j) (nums.getD (i * m + j) 0)) rest := by
      rw [fillList]
    rw [hfillred]
    refine ⟨S, ?_, ?_, ?_, ?_⟩
    · rw [C, hg1count, List.length_cons]
      omega
    · intro x y hxy
      rw [U x y (fun p' hp' => hxy p' (List.mem_cons_of_mem _ hp'))]
      exact getCell_setCell_ne g _ (by
        rcases pair_ne_components (Ne.symm (hxy (i, j) (List.mem_cons_self ..))) with h | h
        · exact Or.inl h
        · exact Or.inr h)
    · intro p' hp'
      rcases List.mem_cons.mp hp' with h | h
      · subst h
        rw [U (row + i) (col + j) hheadne]
        exact getCell_setCell_self g _ hrb hcb
      · exact V p' h
    · intro hvl
      exact L (valuesLe_setCell hvl (hle (i * m + j)) (row + i) (col + j))

theorem fillBox_eq (g : Board) (row col size : Nat) (s : Nat → Nat) (k : Nat) :
    fillBox g row col size s k =
      (fillList row col (sqrtN size) (shuffle (List.range' 1 size) s k).1 g
        (allCells (sqrtN size)), (shuffle (List.range' 1 size) s k).2) := by
  rfl

theorem seedGo_cons (size : Nat) (s : Nat → Nat) (g : Board) (k d : Nat) (rest : List Nat) :
    seedGo size s g k (d :: rest) =
      seedGo size s (fillBox g d d size s k).1 (fillBox g d d size s k).2 rest := by
  rfl

theorem allCells_nodup (n : Nat) : (allCells n).Nodup := by
  have : allCells n = (List.range n).product (List.range n) := rfl
  rw [this]
  exact List.Nodup.product (List.nodup_range n) (List.nodup_range n)

theorem allCells_length (n : Nat) : (allCells n).length = n * n := by
  have : allCells n = (List.range n).product (List.range n) := rfl
  rw [this]
  show ((List.range n) ×ˢ (List.range n)).length = n * n
  rw [List.length_product, List.length_range]

theorem shuffled_facts (size : Nat) (s : Nat → Nat) (k : Nat) :
    (shuffle (List.range' 1 size) s k).1.length = size ∧
    (∀ t, t < size → 1 ≤ (shuffle (List.range' 1 size) s k).1.getD t 0 ∧
      (shuffle (List.range' 1 size) s k).1.getD t 0 ≤ size) ∧
    (∀ t, (shuffle (List.range' 1 size) s k).1.getD t 0 ≤ size) := by
  have hperm := shuffle_perm (List.range' 1 size) s k
  have hlen : (shuffle (List.range' 1 size) s k).1.length = size := by
    rw [hperm.length_eq, List.length_range']
  refine ⟨hlen, fun t ht => ?_, fun t => ?_⟩
  · have hmem : (shuffle (List.range' 1 size) s k).1.getD t 0 ∈
        (shuffle (List.range' 1 size) s k).1 :=
      getD_mem_of_lt _ 0 (by rw [hlen]; exact ht)
    have := List.mem_range'_1.mp (hperm.mem_iff.mp hmem)
    omega
  · by_cases ht : t < size
    · have hmem : (shuffle (List.range' 1 size) s k).1.getD t 0 ∈
          (shuffle (List.range' 1 size) s k).1 :=
        getD_mem_of_lt _ 0 (by rw [hlen]; exact ht)
      have := List.mem_range'_1.mp (hperm.mem_iff.mp hmem)
      omega
    · rw [getD_of_length_le _ 0 (by rw [hlen]; omega)]
      omega

theorem box_cell_div' {m i : Nat} (hm : 0 < m) (hi : i < m) {q : Nat} :
    (q * m + i) / m = q := by
  have h : q * m + i = m * q + i := by ring
  rw [h]
  exact box_cell_div hm hi

theorem seedGo_spec (size m : Nat) (s : Nat → Nat) (hm : size = m * m) :
    ∀ (cs : List Nat) (g : Board) (k : Nat),
      Square size g →
      ValuesLe size g →
      (∀ x y, getCell g x y ≠ 0 → x / m = y / m) →
      (∀ d0, d0 < m → (d0 * m) ∈ cs → ∀ i j, i < m → j < m →
        getCell g (d0 * m + i) (d0 * m + j) = 0) →
      (∀ d ∈ cs, ∃ d0, d0 < m ∧ d = d0 * m) →
      cs.Nodup →
      Square size (seedGo size s g k cs).1 ∧
      ValuesLe size (seedGo size s g k cs).1 ∧
      (∀ x y, getCell (seedGo size s g k cs).1 x y ≠ 0 → x / m = y / m) ∧
      (∀ d0, d0 < m → ((d0 * m) ∈ cs ∨ (boxVals g m d0 d0).Perm (List.range' 1 size)) →
        (boxVals (seedGo size s g k cs).1 m d0 d0).Perm (List.range' 1 size)) ∧
      countNonzero (seedGo size s g k cs).1 = countNonzero g + cs.length * size := by
  intro cs
  induction cs with
  | nil =>
    intro g k hsq hvl hdiag _ _ _
    refine ⟨hsq, hvl, hdiag, fun d0 _ h => ?_, by simp [seedGo]⟩
    rcases h with h | h
    · exact absurd h (List.not_mem_nil _)
    · exact h
  | cons d rest ih =>
    intro g k hsq hvl hdiag hempty hcorner hnd
    obtain ⟨d0c, hd0c, hdeq⟩ := hcorner d (List.mem_cons_self ..)
    subst hdeq
    have hm0 : 0 < m := by omega
    have hmsqrt : sqrtN size = m := by rw [hm]; exact sqrtN_eq m
    obtain ⟨hslen, hsin, hsle⟩ := shuffled_facts size s k
    have hboxlt : d0c * m + m ≤ size := by
      have h1 : d0c * m + m = (d0c + 1) * m := by ring
      have h2 : (d0c + 1) * m ≤ m * m := Nat.mul_le_mul_right m (by omega)
      omega
    have hnzf : ∀ i j, i < m → j < m →
        (shuffle (List.range' 1 size) s k).1.getD (i * m + j) 0 ≠ 0 := by
      intro i j hi hj
      have hlt : i * m + j < size := by
        rw [hm]
        have := box_cell_lt (m := m) (q := i) (i := j) hj hi
        have h3 : m * i + j = i * m + j := by ring
        omega
      have := (hsin (i * m + j) hlt).1
      omega
    obtain ⟨S1, C1, U1, V1, L1⟩ := fillList_spec size (d0c * m) (d0c * m) m
      (shuffle (List.range' 1 size) s k).1 hnzf hsle hboxlt hboxlt
      (allCells m) g hsq
      (fun p hp => mem_allCells.mp hp)
      (fun p hp => hempty d0c hd0c (List.mem_cons_self ..) p.1 p.2
        (mem_allCells.mp hp).1 (mem_allCells.mp hp).2)
      (allCells_nodup m)
    rw [seedGo_cons, fillBox_eq, hmsqrt]
    have hg1 := L1 hvl
    have hbox_d0c : boxVals (fillList (d0c * m) (d0c * m) m
        (shuffle (List.range' 1 size) s k).1 g (allCells m)) m d0c d0c =
        (shuffle (List.range' 1 size) s k).1 := by
      unfold boxVals
      have hlen2 : m * m = (shuffle (List.range' 1 size) s k).1.length := by
        rw [hslen, hm]
      calc (List.range (m * m)).map (fun t =>
            getCell (fillList (d0c * m) (d0c * m) m
              (shuffle (List.range' 1 size) s k).1 g (allCells m))
              (d0c * m + t / m) (d0c * m + t % m))
          = (List.range (m * m)).map (fun t =>
              (shuffle (List.range' 1 size) s k).1.getD t 0) := by
            refine List.map_congr_left fun t ht => ?_
            have htm := List.mem_range.mp ht
            have hp : (t / m, t % m) ∈ allCells m := by
              refine mem_allCells.mpr ⟨?_, Nat.mod_lt _ hm0⟩
              exact Nat.div_lt_of_lt_mul (by rw [Nat.mul_comm] at htm ⊢; exact htm)
            have := V1 (t / m, t % m) hp
            simp only at this
            rw [this]
            congr 1
            have := Nat.div_add_mod t m
            have h3 : t / m * m = m * (t / m) := by ring
            omega
        _ = (shuffle (List.range' 1 size) s k).1 := by
            rw [hlen2]
            exact getD_map_range _
    have hnotachanged : ∀ x y,
        (∀ p ∈ allCells m, (x, y) ≠ (d0c * m + p.1, d0c * m + p.2)) →
        getCell (fillList (d0c * m) (d0c * m) m
          (shuffle (List.range' 1 size) s k).1 g (allCells m)) x y = getCell g x y := U1
    have hdiag1 : ∀ x y, getCell (fillList (d0c * m) (d0c * m) m
        (shuffle (List.range' 1 size) s k).1 g (allCells m)) x y ≠ 0 →
        x / m = y / m := by
      intro x y hxy
      by_cases hx : ∀ p ∈ allCells m, (x, y) ≠ (d0c * m + p.1, d0c * m + p.2)
      · rw [hnotachanged x y hx] at hxy
        exact hdiag x y hxy
      · push_neg at hx
        obtain ⟨p, hp, hpe⟩ := hx
        have e1 : x = d0c * m + p.1 := congrArg Prod.fst hpe
        have e2 : y = d0c * m + p.2 := congrArg Prod.snd hpe
        rw [e1, e2, box_cell_div' hm0 (mem_allCells.mp hp).1,
          box_cell_div' hm0 (mem_allCells.mp hp).2]
    have hempty1 : ∀ d0, d0 < m → (d0 * m) ∈ rest → ∀ i j, i < m → j < m →
        getCell (fillList (d0c * m) (d0c * m) m
          (shuffle (List.range' 1 size) s k).1 g (allCells m))
          (d0 * m + i) (d0 * m + j) = 0 := by
      intro d0 hd0 hmem i j hi hj
      have hdne : d0 ≠ d0c := by
        intro hcon
        subst hcon
        exact (List.nodup_cons.mp hnd).1 hmem
      rw [hnotachanged _ _ ?_]
      · exact hempty d0 hd0 (List.mem_cons_of_mem _ hmem) i j hi hj
      · intro p hp hcon
        have e1 : d0 * m + i = d0c * m + p.1 := congrArg Prod.fst hcon
        have hdiv : d0 = d0c := by
          have h1 := box_cell_div' hm0 hi (q := d0)
          have h2 := box_cell_div' hm0 (mem_allCells.mp hp).1 (q := d0c)
          rw [← e1] at h2
          rw [h1] at h2
          exact h2
        exact hdne hdiv
    obtain ⟨S2, L2, D2, B2, N2⟩ := ih (fillList (d0c * m) (d0c * m) m
        (shuffle (List.range' 1 size) s k).1 g (allCells m)) (shuffle (List.range' 1 size) s k).2
      S1 hg1 hdiag1 hempty1
      (fun d hd => hcorner d (List.mem_cons_of_mem _ hd))
      (List.nodup_cons.mp hnd).2
    refine ⟨S2, L2, D2, ?_, ?_⟩
    · intro d0 hd0 hcase
      by_cases hde : d0 = d0c
      · subst hde
        refine B2 d0 hd0 (Or.inr ?_)
        rw [hbox_d0c]
        exact shuffle_perm _ s k
      · rcases hcase with hmem | hperm
        · rcases List.mem_cons.mp hmem with h | h
          · exfalso
            exact hde (Nat.eq_of_mul_eq_mul_right hm0 h)
          · exact B2 d0 hd0 (Or.inl h)
        · refine B2 d0 hd0 (Or.inr ?_)
          have : boxVals (fillList (d0c * m) (d0c * m) m
              (shuffle (List.range' 1 size) s k).1 g (allCells m)) m d0 d0 =
              boxVals g m d0 d0 := by
            unfold boxVals
            refine List.map_congr_left fun t ht => ?_
            refine hnotachanged _ _ ?_
            intro p hp hcon
            have e1 : d0 * m + t / m = d0c * m + p.1 := congrArg Prod.fst hcon
            have htm := List.mem_range.mp ht
            have htd : t / m < m :=
              Nat.div_lt_of_lt_mul (by rw [Nat.mul_comm] at htm ⊢; exact htm)
            have h1 := box_cell_div' hm0 htd (q := d0)
            have h2 := box_cell_div' hm0 (mem_allCells.mp hp).1 (q := d0c)
            rw [← e1] at h2
            rw [h1] at h2
            exact hde h2
          rw [this]
          exact hperm
    · rw [N2, C1, allCells_length, List.length_cons, ← hm]
      ring

theorem div_lt_side {size m r : Nat} (hm : size = m * m) (hr : r < size) : r / m < m := by
  refine Nat.div_lt_of_lt_mul ?_
  rw [Nat.mul_comm, ← hm]
  exact hr

theorem cell_decomp {m r : Nat} : m * (r / m) + r % m = r := Nat.div_add_mod r m

theorem decomp_dm (m r : Nat) : r / m * m + r % m = r := by
  have h1 := Nat.div_add_mod r m
  have h2 : r / m * m = m * (r / m) := by ring
  omega

theorem mod_of_mul_add {m x y : Nat} (hy : y < m) : (x * m + y) % m = y := by
  have e : x * m + y = m * x + y := by ring
  rw [e, Nat.mul_add_mod]
  exact Nat.mod_eq_of_lt hy

theorem noconf_of_diag_boxes {size m : Nat} {b : Board} (hm : size = m * m)
    (hdiag : ∀ x y, getCell b x y ≠ 0 → x / m = y / m)
    (hbox : ∀ d0, d0 < m → (boxVals b m d0 d0).Perm (List.range' 1 size)) :
    NoConflicts size b := by
  intro r1 c1 r2 c2 h1 h2 h3 h4 hne hunit hnz heq
  have hm0 : 0 < m := by
    rcases Nat.eq_zero_or_pos m with h | h
    · subst h
      simp [hm] at h1
    · exact h
  have hmsqrt : sqrtN size = m := by rw [hm]; exact sqrtN_eq m
  rw [hmsqrt] at hunit
  have hnz2 : getCell b r2 c2 ≠ 0 := by
    intro h
    rw [h] at heq
    exact hnz heq
  have hd1 : r1 / m = c1 / m := hdiag r1 c1 hnz
  have hd2 : r2 / m = c2 / m := hdiag r2 c2 hnz2
  have hdd : r1 / m = r2 / m := by
    rcases hunit with h | h | h
    · rw [h]
    · rw [hd1, h, ← hd2]
    · exact h.1
  have hcc : c1 / m = c2 / m := by rw [← hd1, hdd, hd2]
  have hd1m : r1 / m < m := div_lt_side hm h1
  have hnodup : (boxVals b m (r1 / m) (r1 / m)).Nodup :=
    (hbox (r1 / m) hd1m).symm.nodup (List.nodup_range' 1 size)
  have ht1 : r1 % m * m + c1 % m < m * m := by
    have e1 : r1 % m * m + c1 % m = m * (r1 % m) + c1 % m := by ring
    rw [e1]
    exact box_cell_lt (Nat.mod_lt _ hm0) (Nat.mod_lt _ hm0)
  have ht2 : r2 % m * m + c2 % m < m * m := by
    have e1 : r2 % m * m + c2 % m = m * (r2 % m) + c2 % m := by ring
    rw [e1]
    exact box_cell_lt (Nat.mod_lt _ hm0) (Nat.mod_lt _ hm0)
  have htne : r1 % m * m + c1 % m ≠ r2 % m * m + c2 % m := by
    intro hcon
    have hr' : r1 % m = r2 % m := by
      have e1 := box_cell_div' hm0 (Nat.mod_lt c1 hm0) (q := r1 % m)
      have e2 := box_cell_div' hm0 (Nat.mod_lt c2 hm0) (q := r2 % m)
      rw [← hcon] at e2
      rw [e1] at e2
      exact e2
    have hc' : c1 % m = c2 % m := by
      have e1 : (r1 % m * m + c1 % m) % m = c1 % m := mod_of_mul_add (Nat.mod_lt _ hm0)
      have e2 : (r2 % m * m + c2 % m) % m = c2 % m := mod_of_mul_add (Nat.mod_lt _ hm0)
      rw [← e1, ← e2, hcon]
    have her : r1 = r2 := by
      have a1 := decomp_dm m r1
      have a2 := decomp_dm m r2
      have hx : r1 / m * m = r2 / m * m := by rw [hdd]
      omega
    have hec : c1 = c2 := by
      have a1 := decomp_dm m c1
      have a2 := decomp_dm m c2
      have hx : c1 / m * m = c2 / m * m := by rw [hcc]
      omega
    exact hne (by rw [her, hec])
  have hcell1 : getCell b (r1 / m * m + (r1 % m * m + c1 % m) / m)
      (r1 / m * m + (r1 % m * m + c1 % m) % m) = getCell b r1 c1 := by
    have e1 : (r1 % m * m + c1 % m) / m = r1 % m := box_cell_div' hm0 (Nat.mod_lt _ hm0)
    have e2 : (r1 % m * m + c1 % m) % m = c1 % m := mod_of_mul_add (Nat.mod_lt _ hm0)
    rw [e1, e2]
    have a1 : r1 / m * m + r1 % m = r1 := decomp_dm m r1
    have a2 : r1 / m * m + c1 % m = c1 := by
      have b1 := decomp_dm m c1
      have hx : r1 / m * m = c1 / m * m := by rw [hd1]
      omega
    rw [a1, a2]
  have hcell2 : getCell b (r1 / m * m + (r2 % m * m + c2 % m) / m)
      (r1 / m * m + (r2 % m * m + c2 % m) % m) = getCell b r2 c2 := by
    have e1 : (r2 % m * m + c2 % m) / m = r2 % m := box_cell_div' hm0 (Nat.mod_lt _ hm0)
    have e2 : (r2 % m * m + c2 % m) % m = c2 % m := mod_of_mul_add (Nat.mod_lt _ hm0)
    rw [e1, e2]
    have a1 : r1 / m * m + r2 % m = r2 := by
      have b1 := decomp_dm m r2
      have hx : r1 / m * m = r2 / m * m := by rw [hdd]
      omega
    have a2 : r1 / m * m + c2 % m = c2 := by
      have b1 := decomp_dm m c2
      have hx : r1 / m * m = c2 / m * m := by rw [hdd, hd2]
      omega
    rw [a1, a2]
  have hfne := nodup_map_range_ne (f := fun t =>
      getCell b (r1 / m * m + t / m) (r1 / m * m + t % m)) hnodup ht1 ht2 htne
  simp only at hfne
  rw [hcell1, hcell2] at hfne
  exact hfne heq

theorem vals_perm_of_full {size m : Nat} {b : Board} (hm : size = m * m)
    (hnc : NoConflicts size b) (hvl : ValuesLe size b) (hfull : FullB size b) :
    (∀ r, r < size → (rowVals b size r).Perm (List.range' 1 size)) ∧
    (∀ c, c < size → (colVals b size c).Perm (List.range' 1 size)) ∧
    (∀ br bc, br < m → bc < m → (boxVals b m br bc).Perm (List.range' 1 size)) := by
  have hmsqrt : sqrtN size = m := by rw [hm]; exact sqrtN_eq m
  have hgen : ∀ (l : List Nat), l.Nodup → (∀ v ∈ l, v ∈ List.range' 1 size) →
      l.length = size → l.Perm (List.range' 1 size) := by
    intro l hnd hsub hlen
    refine (List.subperm_of_subset hnd hsub).perm_of_length_le ?_
    rw [hlen, List.length_range']
  refine ⟨fun r hr => ?_, fun c hc => ?_, fun br bc hbr hbc => ?_⟩
  · refine hgen _ ?_ ?_ (by rw [rowVals, List.length_map, List.length_range])
    · refine List.Nodup.map_on ?_ (List.nodup_range size)
      intro c1 hc1 c2 hc2 hfe
      by_contra hcc
      exact hnc r c1 r c2 hr (List.mem_range.mp hc1) hr (List.mem_range.mp hc2)
        (by
          intro hcon
          exact hcc (congrArg Prod.snd hcon))
        (Or.inl rfl) (hfull r c1 hr (List.mem_range.mp hc1)) hfe
    · intro v hv
      obtain ⟨c, hc, hvc⟩ := List.mem_map.mp hv
      have h1 := hfull r c hr (List.mem_range.mp hc)
      have h2 := hvl r c
      rw [hvc] at h1 h2
      exact List.mem_range'_1.mpr (by omega)
  · refine hgen _ ?_ ?_ (by rw [colVals, List.length_map, List.length_range])
    · refine List.Nodup.map_on ?_ (List.nodup_range size)
      intro r1 hr1 r2 hr2 hfe
      by_contra hrr
      exact hnc r1 c r2 c (List.mem_range.mp hr1) hc (List.mem_range.mp hr2) hc
        (by
          intro hcon
          exact hrr (congrArg Prod.fst hcon))
        (Or.inr (Or.inl rfl)) (hfull r1 c (List.mem_range.mp hr1) hc) hfe
    · intro v hv
      obtain ⟨r, hr, hvr⟩ := List.mem_map.mp hv
      have h1 := hfull r c (List.mem_range.mp hr) hc
      have h2 := hvl r c
      rw [hvr] at h1 h2
      exact List.mem_range'_1.mpr (by omega)
  · have hm0 : 0 < m := by omega
    have hcellr : ∀ t, t < m * m → br * m + t / m < size := by
      intro t ht
      have h1 : t / m < m := div_lt_side (by rfl) ht
      have h2 : br * m + t / m = m * br + t / m := by ring
      rw [hm, h2]
      exact box_cell_lt h1 hbr
    have hcellc : ∀ t, t < m * m → bc * m + t % m < size := by
      intro t _
      have h1 : t % m < m := Nat.mod_lt _ hm0
      have h2 : bc * m + t % m = m * bc + t % m := by ring
      rw [hm, h2]
      exact box_cell_lt h1 hbc
    refine hgen _ ?_ ?_ (by rw [boxVals, List.length_map, List.length_range, hm])
    · refine List.Nodup.map_on ?_ (List.nodup_range (m * m))
      intro t1 ht1 t2 ht2 hfe
      by_contra htt
      have ht1' := List.mem_range.mp ht1
      have ht2' := List.mem_range.mp ht2
      have hpne : (br * m + t1 / m, bc * m + t1 % m) ≠
          (br * m + t2 / m, bc * m + t2 % m) := by
        intro hcon
        have e1 : br * m + t1 / m = br * m + t2 / m := congrArg Prod.fst hcon
        have e2 : bc * m + t1 % m = bc * m + t2 % m := congrArg Prod.snd hcon
        have d1 : t1 / m = t2 / m := by omega
        have d2 : t1 % m = t2 % m := by omega
        have a1 := cell_decomp (m := m) (r := t1)
        have a2 := cell_decomp (m := m) (r := t2)
        have : m * (t1 / m) = m * (t2 / m) := by rw [d1]
        omega
      refine hnc (br * m + t1 / m) (bc * m + t1 % m) (br * m + t2 / m) (bc * m + t2 % m)
        (hcellr t1 ht1') (hcellc t1 ht1') (hcellr t2 ht2') (hcellc t2 ht2') hpne
        (Or.inr (Or.inr ⟨?_, ?_⟩))
        (hfull _ _ (hcellr t1 ht1') (hcellc t1 ht1')) hfe
      · rw [hmsqrt, box_cell_div' hm0 (div_lt_side (by rfl) ht1'),
          box_cell_div' hm0 (div_lt_side (by rfl) ht2')]
      · rw [hmsqrt, box_cell_div' hm0 (Nat.mod_lt _ hm0),
          box_cell_div' hm0 (Nat.mod_lt _ hm0)]
    · intro v hv
      obtain ⟨t, ht, hvt⟩ := List.mem_map.mp hv
      have ht' := List.mem_range.mp ht
      have h1 := hfull _ _ (hcellr t ht') (hcellc t ht')
      have h2 := hvl (br * m + t / m) (bc * m + t % m)
      rw [hvt] at h1 h2
      exact List.mem_range'_1.mpr (by omega)

theorem seedBoard_spec (size m : Nat) (s : Nat → Nat) (k : Nat) (hm : size = m * m) :
    Square size (seedBoard size s k).1 ∧
    ValuesLe size (seedBoard size s k).1 ∧
    NoConflicts size (seedBoard size s k).1 ∧
    (∀ x y, getCell (seedBoard size s k).1 x y ≠ 0 → x / m = y / m) ∧
    (∀ d0, d0 < m → (boxVals (seedBoard size s k).1 m d0 d0).Perm (List.range' 1 size)) ∧
    countNonzero (seedBoard size s k).1 = m * size := by
  have hmsqrt : sqrtN size = m := by rw [hm]; exact sqrtN_eq m
  have hred : seedBoard size s k =
      seedGo size s (List.replicate size (List.replicate size 0)) k
        ((List.range m).map (· * m)) := by
    rw [seedBoard, hmsqrt]
  rw [hred]
  have hcorner : ∀ d ∈ (List.range m).map (· * m), ∃ d0, d0 < m ∧ d = d0 * m := by
    intro d hd
    obtain ⟨d0, hd0, he⟩ := List.mem_map.mp hd
    exact ⟨d0, List.mem_range.mp hd0, he.symm⟩
  have hnodup : ((List.range m).map (· * m)).Nodup := by
    refine List.Nodup.map_on ?_ (List.nodup_range m)
    intro a ha b hb he
    have hm0 : 0 < m := by
      have := List.mem_range.mp ha
      omega
    exact Nat.eq_of_mul_eq_mul_right hm0 he
  obtain ⟨S, L, D, B, N⟩ := seedGo_spec size m s hm ((List.range m).map (· * m))
    (List.replicate size (List.replicate size 0)) k
    (empty_square size)
    (fun r c => by rw [getCell_empty]; omega)
    (fun x y h => absurd (getCell_empty size x y) h)
    (fun d0 _ _ i j _ _ => getCell_empty ..)
    hcorner hnodup
  refine ⟨S, L, ?_, D, ?_, ?_⟩
  · refine noconf_of_diag_boxes hm D fun d0 hd0 => ?_
    exact B d0 hd0 (Or.inl (List.mem_map.mpr ⟨d0, List.mem_range.mpr hd0, rfl⟩))
  · intro d0 hd0
    exact B d0 hd0 (Or.inl (List.mem_map.mpr ⟨d0, List.mem_range.mpr hd0, rfl⟩))
  · rw [N, countNonzero_empty, List.length_map, List.length_range]
    omega

theorem removeOne_spec (size : Nat) (s : Nat → Nat) :
    ∀ (fuel : Nat) (g : Board) (k : Nat) (g' : Board) (k' : Nat),
      removeOne size s g k fuel = some (g', k') →
      Square size g →
      Square size g' ∧ countNonzero g' + 1 = countNonzero g ∧
      (NoConflicts size g → NoConflicts size g') := by
  intro fuel
  induction fuel with
  | zero =>
    intro g k g' k' h _
    exact Option.noConfusion h
  | succ fuel ih =>
    intro g k g' k' h hsq
    rw [removeOne] at h
    by_cases hz : getCell g (s k % size) (s (k + 1) % size) = 0
    · rw [if_pos hz] at h
      exact ih g (k + 2) g' k' h hsq
    · rw [if_neg hz] at h
      have hpair : (setCell g (s k % size) (s (k + 1) % size) 0, k + 2) = (g', k') :=
        Option.some.injEq .. ▸ h
      have hg : g' = setCell g (s k % size) (s (k + 1) % size) 0 :=
        (congrArg Prod.fst hpair).symm
      obtain ⟨hrb, hcb⟩ := getCell_ne_zero_bounds hz
      refine ⟨hg ▸ square_setCell hsq .., ?_,
        fun hnc => hg ▸ hnc.clearP (s k % size) (s (k + 1) % size)⟩
      rw [hg]
      exact countNonzero_clearCell hrb hcb hz

theorem removeCells_spec (size : Nat) (s : Nat → Nat) (retry : Nat) :
    ∀ (n : Nat) (g : Board) (k : Nat) (g' : Board) (k' : Nat),
      removeCells size s retry g k n = some (g', k') →
      Square size g →
      Square size g' ∧ countNonzero g' + n = countNonzero g ∧
      (NoConflicts size g → NoConflicts size g') := by
  intro n
  induction n with
  | zero =>
    intro g k g' k' h hsq
    have hpair : (g, k) = (g', k') := Option.some.injEq .. ▸ h
    have hg : g' = g := (congrArg Prod.fst hpair).symm
    subst hg
    exact ⟨hsq, rfl, fun hnc => hnc⟩
  | succ n ih =>
    intro g k g' k' h hsq
    rw [removeCells] at h
    cases hro : removeOne size s g k retry with
    | none =>
      rw [hro] at h
      exact Option.noConfusion h
    | some p =>
      obtain ⟨g1, k1⟩ := p
      rw [hro] at h
      obtain ⟨S1, C1, N1⟩ := removeOne_spec size s retry g k g1 k1 hro hsq
      obtain ⟨S2, C2, N2⟩ := ih g1 k1 g' k' h S1
      exact ⟨S2, by omega, fun hnc => N2 (N1 hnc)⟩

theorem nzCount_of_all_ne (l : List Nat) (h : ∀ c, c < l.length → l.getD c 0 ≠ 0) :
    nzCount l = l.length := by
  induction l with
  | nil => rfl
  | cons x xs ih =>
    have hx : x ≠ 0 := h 0 (by simp)
    have hxs : ∀ c, c < xs.length → xs.getD c 0 ≠ 0 := by
      intro c hc
      have := h (c + 1) (by simpa using hc)
      simpa [List.getD] using this
    simp [nzCount, hx, ih hxs]
    omega

theorem countNonzero_full {size : Nat} {b : Board} (hsq : Square size b)
    (hfull : FullB size b) : countNonzero b = size * size := by
  have hrow : ∀ row ∈ b, nzCount row = size := by
    intro row hrow
    obtain ⟨r, hr, he⟩ := List.mem_iff_getElem.mp hrow
    have hlen : row.length = size := hsq.2 row hrow
    refine Eq.trans (nzCount_of_all_ne row ?_) hlen
    intro c hc
    have hbr : b.getD r [] = row := by
      rw [List.getD_eq_getElem?_getD, List.getElem?_eq_getElem hr, he]
      rfl
    have hcell : getCell b r c = row.getD c 0 := by
      unfold getCell
      rw [hbr]
    rw [← hcell]
    exact hfull r c (by rw [← hsq.1]; exact hr) (by rw [← hlen]; exact hc)
  have hsum : ∀ l : Board, (∀ row ∈ l, nzCount row = size) →
      (l.map nzCount).sum = l.length * size := by
    intro l
    induction l with
    | nil => intro _; simp
    | cons x xs ih =>
      intro hl
      have hx := hl x (List.mem_cons_self ..)
      have hxs := fun row hr => hl row (List.mem_cons_of_mem _ hr)
      simp [List.map_cons, List.sum_cons, hx, ih hxs]
      ring
  rw [countNonzero, hsum b hrow, hsq.1]

theorem generatePuzzle_eq (size : Nat) (q : ℚ) (s : Nat → Nat) (retry : Nat) :
    generatePuzzle size q s retry =
      match removeCells size s retry (solveSudoku (seedBoard size s 0).1).2.1
        (seedBoard size s 0).2 (size * size - keepCount size q) with
      | none => none
      | some (g, _) => some g := by
  rfl

theorem rOf_bounds {q : ℚ} (hq0 : 0 ≤ q) (hq1 : q < 1) :
    3 / 10 ≤ rOf q ∧ rOf q < 1 / 2 := by
  unfold rOf
  constructor
  · nlinarith
  · nlinarith

theorem keepCount_lt_half {size : Nat} {q : ℚ} (hs : 0 < size) (hq0 : 0 ≤ q)
    (hq1 : q < 1) : 2 * keepCount size q < size * size := by
  obtain ⟨hr0, hr1⟩ := rOf_bounds hq0 hq1
  have hsq : (0 : ℚ) < (size : ℚ) := by exact_mod_cast hs
  have hx0 : (0 : ℚ) ≤ ((size : ℚ) * (size : ℚ)) * rOf q := by nlinarith
  have hfl : (0 : ℤ) ≤ ⌊((size : ℚ) * (size : ℚ)) * rOf q⌋ := Int.floor_nonneg.mpr hx0
  have hle : ((⌊((size : ℚ) * (size : ℚ)) * rOf q⌋ : ℚ)) ≤
      ((size : ℚ) * (size : ℚ)) * rOf q := Int.floor_le _
  have hhalf : ((size : ℚ) * (size : ℚ)) * rOf q < ((size : ℚ) * (size : ℚ)) / 2 := by
    have hx : (0 : ℚ) < (size : ℚ) * (size : ℚ) := mul_pos hsq hsq
    nlinarith
  have h2 : (2 * (⌊((size : ℚ) * (size : ℚ)) * rOf q⌋ : ℚ)) < (size : ℚ) * (size : ℚ) := by
    linarith
  have h3 : (2 * ⌊((size : ℚ) * (size : ℚ)) * rOf q⌋ : ℤ) < (size : ℤ) * (size : ℤ) := by
    exact_mod_cast h2
  have h4 : ((⌊((size : ℚ) * (size : ℚ)) * rOf q⌋).toNat : ℤ) =
      ⌊((size : ℚ) * (size : ℚ)) * rOf q⌋ := Int.toNat_of_nonneg hfl
  unfold keepCount
  omega

theorem solveSudoku_spec_of_pre {size : Nat} {b : Board} (hlen : b.length = size)
    (hpre : Pre size b) : SolveSpec size b (solveSudoku b) := by
  have h := solveAux_spec size (countZeros b + 1) b 0 hpre
  have e : solveSudoku b = solveAux size (countZeros b + 1) b 0 := by
    rw [solveSudoku, hlen]
  rw [e]
  exact h

theorem generate_spec (size m : Nat) (q : ℚ) (s : Nat → Nat) (retry : Nat) (g : Board)
    (hm : size = m * m) (hm2 : 2 ≤ m) (hq0 : 0 ≤ q) (hq1 : q < 1)
    (hgen : generatePuzzle size q s retry = some g) :
    Square size g ∧ NoConflicts size g ∧ countNonzero g = keepCount size q := by
  obtain ⟨Ssq, Svl, Snc, _, _, Scount⟩ := seedBoard_spec size m s 0 hm
  obtain ⟨⟨S2, N2, V2⟩, Fr, Fa, Fu⟩ := solveSudoku_spec_of_pre Ssq.1 ⟨Ssq, Snc, Svl⟩
  rw [generatePuzzle_eq] at hgen
  cases hrc : removeCells size s retry (solveSudoku (seedBoard size s 0).1).2.1
      (seedBoard size s 0).2 (size * size - keepCount size q) with
  | none =>
    rw [hrc] at hgen
    exact Option.noConfusion hgen
  | some p =>
    obtain ⟨g0, k2⟩ := p
    rw [hrc] at hgen
    have hge : g0 = g := Option.some.inj hgen
    subst g0
    obtain ⟨S3, C3, N3⟩ := removeCells_spec size s retry _ _ _ _ _ hrc S2
    have hs0 : 0 < size := by
      have h4 : 4 ≤ m * m := Nat.mul_le_mul hm2 hm2
      omega
    have hk2 : 2 * keepCount size q < size * size := keepCount_lt_half hs0 hq0 hq1
    refine ⟨S3, N3 N2, ?_⟩
    cases hok : (solveSudoku (seedBoard size s 0).1).1 with
    | true =>
      have hcount2 := countNonzero_full S2 (Fu hok)
      omega
    | false =>
      exfalso
      have hcount2 : countNonzero (solveSudoku (seedBoard size s 0).1).2.1 = m * size := by
        rw [Fa hok]
        exact Scount
      have h2m : 2 * m ≤ m * m := Nat.mul_le_mul_right m hm2
      have e1 : 2 * (m * size) = 2 * m * size := by ring
      have h3 : 2 * m * size ≤ m * m * size := Nat.mul_le_mul_right size h2m
      have e2 : m * m * size = size * size := by rw [← hm]
      omega

set_option maxRecDepth 1000000

set_option maxHeartbeats 1000000

/-- C1 (counterexample): the original claim says the solve after the
diagonal-box seeding step succeeds for every outcome of the random
choices.  It does not: the stream below seeds the 4×4 board with diagonal
boxes `[[1,2],[3,4]]` and `[[1,3],[2,4]]`, and that board admits no
completion, so `solveSudoku` reports `solved = false`. -/
theorem c1_counterexample :
    (4 = 4 ∨ 4 = 9 ∨ 4 = 16) ∧
    (solveSudoku (seedBoard 4 (fun k => [3, 2, 1, 3, 1, 1].getD k 0) 0).1).1 = false := by
  exact ⟨Or.inl rfl, by decide⟩

/-- C1 (amended): for N ∈ {4, 9, 16} and every outcome of the generator's
random choices, IF the plain solve of the board obtained from the
diagonal-box seeding step reports `solved = true`, THEN the completed
pre-removal board has every row, every column and every box equal to a
permutation of 1..N.  The unconditional claim is false
(`c1_counterexample`): the seeded solve is not always satisfiable. -/
theorem c1_amended (size : Nat) (s : Nat → Nat) (k : Nat)
    (hsize : size = 4 ∨ size = 9 ∨ size = 16)
    (hsolved : (solveSudoku (seedBoard size s k).1).1 = true) :
    (∀ r, r < size →
      (rowVals (solveSudoku (seedBoard size s k).1).2.1 size r).Perm
        (List.range' 1 size)) ∧
    (∀ c, c < size →
      (colVals (solveSudoku (seedBoard size s k).1).2.1 size c).Perm
        (List.range' 1 size)) ∧
    (∀ br bc, br < sqrtN size → bc < sqrtN size →
      (boxVals (solveSudoku (seedBoard size s k).1).2.1 (sqrtN size) br bc).Perm
        (List.range' 1 size)) := by
  obtain ⟨m, hm, hm2⟩ : ∃ m, size = m * m ∧ 2 ≤ m := by
    rcases hsize with h | h | h
    · exact ⟨2, by omega, by omega⟩
    · exact ⟨3, by omega, by omega⟩
    · exact ⟨4, by omega, by omega⟩
  have hms : sqrtN size = m := by rw [hm]; exact sqrtN_eq m
  obtain ⟨Ssq, Svl, Snc, _, _, _⟩ := seedBoard_spec size m s k hm
  obtain ⟨⟨S2, N2, V2⟩, _, _, Fu⟩ := solveSudoku_spec_of_pre Ssq.1 ⟨Ssq, Snc, Svl⟩
  obtain ⟨hr, hc, hb⟩ := vals_perm_of_full hm N2 V2 (Fu hsolved)
  rw [hms]
  exact ⟨hr, hc, hb⟩

/-- C1 (witness): a concrete outcome (both diagonal boxes seeded in
order) on which the solve succeeds, instantiating `c1_amended`. -/
theorem c1_witness :
    ((4 : Nat) = 4 ∨ (4 : Nat) = 9 ∨ (4 : Nat) = 16) ∧
    (solveSudoku (seedBoard 4 (fun k => [3, 2, 1, 3, 2, 1].getD k 0) 0).1).1 = true ∧
    (∀ r, r < 4 →
      (rowVals (solveSudoku (seedBoard 4 (fun k => [3, 2, 1, 3, 2, 1].getD k 0) 0).1).2.1
        4 r).Perm (List.range' 1 4)) ∧
    (∀ c, c < 4 →
      (colVals (solveSudoku (seedBoard 4 (fun k => [3, 2, 1, 3, 2, 1].getD k 0) 0).1).2.1
        4 c).Perm (List.range' 1 4)) ∧
    (∀ br bc, br < sqrtN 4 → bc < sqrtN 4 →
      (boxVals (solveSudoku (seedBoard 4 (fun k => [3, 2, 1, 3, 2, 1].getD k 0) 0).1).2.1
        (sqrtN 4) br bc).Perm (List.range' 1 4)) := by
  have h := c1_amended 4 (fun k => [3, 2, 1, 3, 2, 1].getD k 0) 0 (Or.inl rfl) (by decide)
  exact ⟨Or.inl rfl, by decide, h.1, h.2.1, h.2.2⟩

/-- C2: on a square `N × N` board with `N = m²`, a row/column index and a
candidate value in `[1, N]`, and the target cell empty, `isSafe` returns
true iff the value appears nowhere else in the row, nowhere else in the
column, and nowhere else in the `m × m` box with corner
`(row - row % m, col - col % m)`.  The embedded `isSafe` is a pure
function of the board, so the call cannot modify the board. -/
theorem c2 (b : Board) (N m row col v : Nat)
    (hN : b.length = N) (hsq : Square N b) (hm : N = m * m)
    (hrow : row < N) (hcol : col < N) (hv1 : 1 ≤ v) (hvN : v ≤ N)
    (hempty : getCell b row col = 0) :
    isSafe b row col v = true ↔
      ((∀ x, x < N → x ≠ col → getCell b row x ≠ v) ∧
       (∀ x, x < N → x ≠ row → getCell b x col ≠ v) ∧
       (∀ i j, i < m → j < m →
         (i + (row - row % m), j + (col - col % m)) ≠ (row, col) →
         getCell b (i + (row - row % m)) (j + (col - col % m)) ≠ v)) := by
  have hms : sqrtN N = m := by rw [hm]; exact sqrtN_eq m
  rw [isSafe_iff, hN, hms]
  constructor
  · rintro ⟨hA, hB, hC⟩
    exact ⟨fun x hx _ => hA x hx, fun x hx _ => hB x hx,
      fun i j hi hj _ => hC i j hi hj⟩
  · rintro ⟨hA, hB, hC⟩
    refine ⟨?_, ?_, ?_⟩
    · intro x hx
      by_cases hxc : x = col
      · subst hxc
        rw [hempty]
        omega
      · exact hA x hx hxc
    · intro x hx
      by_cases hxr : x = row
      · subst hxr
        rw [hempty]
        omega
      · exact hB x hx hxr
    · intro i j hi hj
      by_cases hp : (i + (row - row % m), j + (col - col % m)) = (row, col)
      · have e1 : i + (row - row % m) = row := congrArg Prod.fst hp
        have e2 : j + (col - col % m) = col := congrArg Prod.snd hp
        rw [e1, e2, hempty]
        omega
      · exact hC i j hi hj hp

/-- C2 (witness): the characterization instantiated at a concrete board
and cell. -/
theorem c2_witness :
    (Square 4 [[1, 2, 3, 4], [3, 4, 1, 2], [2, 1, 4, 3], [4, 3, 2, 0]] ∧
      getCell [[1, 2, 3, 4], [3, 4, 1, 2], [2, 1, 4, 3], [4, 3, 2, 0]] 3 3 = 0) ∧
    (isSafe [[1, 2, 3, 4], [3, 4, 1, 2], [2, 1, 4, 3], [4, 3, 2, 0]] 3 3 1 = true ↔
      ((∀ x, x < 4 → x ≠ 3 →
          getCell [[1, 2, 3, 4], [3, 4, 1, 2], [2, 1, 4, 3], [4, 3, 2, 0]] 3 x ≠ 1) ∧
       (∀ x, x < 4 → x ≠ 3 →
          getCell [[1, 2, 3, 4], [3, 4, 1, 2], [2, 1, 4, 3], [4, 3, 2, 0]] x 3 ≠ 1) ∧
       (∀ i j, i < 2 → j < 2 →
         (i + (3 - 3 % 2), j + (3 - 3 % 2)) ≠ (3, 3) →
         getCell [[1, 2, 3, 4], [3, 4, 1, 2], [2, 1, 4, 3], [4, 3, 2, 0]]
           (i + (3 - 3 % 2)) (j + (3 - 3 % 2)) ≠ 1))) := by
  refine ⟨⟨⟨rfl, by decide⟩, by decide⟩, ?_⟩
  exact c2 [[1, 2, 3, 4], [3, 4, 1, 2], [2, 1, 4, 3], [4, 3, 2, 0]] 4 2 3 3 1
    (by decide) ⟨rfl, by decide⟩ (by decide) (by decide) (by decide) (by decide)
    (by decide) (by decide)

/-- C3: for every starting board, the plain solver and the observed
(animated) solver return the same `solved` flag and the same final
board. -/
theorem c3 (b : Board) :
    (solveSudokuAnimated b).1 = (solveSudoku b).1 ∧
    (solveSudokuAnimated b).2.1 = (solveSudoku b).2.1 := by
  have h := solveAnimAux_proj b.length (countZeros b + 1) b 0 []
  exact ⟨congrArg Prod.fst h, congrArg (fun p => p.2.1) h⟩

/-- C4 (counterexample): the original claim says the solver fills the
last cell of `[[1,2,3,4],[3,4,1,2],[2,1,4,3],[4,3,2,0]]` with 4.  It does
not: row 3, column 3 and the bottom-right box each already contain 4 (and
2 and 3), so the only admissible value is 1. -/
theorem c4_counterexample :
    ¬((solveSudoku [[1, 2, 3, 4], [3, 4, 1, 2], [2, 1, 4, 3], [4, 3, 2, 0]]).1 = true ∧
      getCell (solveSudoku [[1, 2, 3, 4], [3, 4, 1, 2], [2, 1, 4, 3], [4, 3, 2, 0]]).2.1
        3 3 = 4) := by
  decide

/-- C4 (amended): on the 4×4 input `[[1,2,3,4],[3,4,1,2],[2,1,4,3],[4,3,2,0]]`,
`solveSudoku` returns `solved = true` and the final board's last cell
(row 3, column 3) holds the value 1. -/
theorem c4_amended :
    (solveSudoku [[1, 2, 3, 4], [3, 4, 1, 2], [2, 1, 4, 3], [4, 3, 2, 0]]).1 = true ∧
    getCell (solveSudoku [[1, 2, 3, 4], [3, 4, 1, 2], [2, 1, 4, 3], [4, 3, 2, 0]]).2.1
      3 3 = 1 := by
  decide

/-- C5: on a completely filled, conflict-free board, `solveSudoku`
returns `solved = true`, step count exactly 1, and the board itself
unchanged. -/
theorem c5 (b : Board)
    (hfull : ∀ r, r < b.length → ∀ c, c < b.length → getCell b r c ≠ 0)
    (hvalid : isValidSudoku b = true) :
    solveSudoku b = (true, b, 1) := by
  have hfe : findEmpty b.length b = none :=
    (findEmpty_eq_none_iff b.length b).mpr fun r c hr hc => hfull r hr c hc
  show solveAux b.length (countZeros b + 1) b 0 = (true, b, 1)
  rw [solveAux, hfe]

/-- C5 (witness): a concrete solved 4×4 board. -/
theorem c5_witness :
    ((∀ r, r < List.length [[1, 2, 3, 4], [3, 4, 1, 2], [2, 1, 4, 3], [4, 3, 2, 1]] →
        ∀ c, c < List.length [[1, 2, 3, 4], [3, 4, 1, 2], [2, 1, 4, 3], [4, 3, 2, 1]] →
        getCell [[1, 2, 3, 4], [3, 4, 1, 2], [2, 1, 4, 3], [4, 3, 2, 1]] r c ≠ 0) ∧
      isValidSudoku [[1, 2, 3, 4], [3, 4, 1, 2], [2, 1, 4, 3], [4, 3, 2, 1]] = true) ∧
    solveSudoku [[1, 2, 3, 4], [3, 4, 1, 2], [2, 1, 4, 3], [4, 3, 2, 1]] =
      (true, [[1, 2, 3, 4], [3, 4, 1, 2], [2, 1, 4, 3], [4, 3, 2, 1]], 1) := by
  refine ⟨⟨by decide, by decide⟩, ?_⟩
  exact c5 [[1, 2, 3, 4], [3, 4, 1, 2], [2, 1, 4, 3], [4, 3, 2, 1]] (by decide) (by decide)

/-- C6: `isValidSudoku` is false for any board with two equal non-zero
values in the same row, column or box; true on the all-zero board of any
size; and true on every board returned by `generatePuzzle` for the
supported sizes, for every outcome of the random choices (`q` is the
fractional draw of the fill ratio, `s` the integer draw stream, `retry`
any bound on the removal retries). -/
theorem c6 :
    (∀ (b : Board) (r1 c1 r2 c2 : Nat), r1 < b.length → c1 < b.length →
      r2 < b.length → c2 < b.length → (r1, c1) ≠ (r2, c2) →
      (r1 = r2 ∨ c1 = c2 ∨ (r1 / sqrtN b.length = r2 / sqrtN b.length ∧
        c1 / sqrtN b.length = c2 / sqrtN b.length)) →
      getCell b r1 c1 ≠ 0 → getCell b r1 c1 = getCell b r2 c2 →
      isValidSudoku b = false) ∧
    (∀ size : Nat, isValidSudoku (List.replicate size (List.replicate size 0)) = true) ∧
    (∀ (size : Nat) (q : ℚ) (s : Nat → Nat) (retry : Nat) (g : Board),
      (size = 4 ∨ size = 9 ∨ size = 16) → 0 ≤ q → q < 1 →
      generatePuzzle size q s retry = some g → isValidSudoku g = true) := by
  refine ⟨?_, ?_, ?_⟩
  · intro b r1 c1 r2 c2 h1 h2 h3 h4 hne hunit hnz heq
    cases hv : isValidSudoku b with
    | false => rfl
    | true =>
      exact absurd heq (noConflicts_of_isValid hv r1 c1 r2 c2 h1 h2 h3 h4 hne hunit hnz)
  · intro size
    rw [isValid_iff]
    intro r c _ _ hnz
    exact absurd (getCell_empty size r c) hnz
  · intro size q s retry g hsize hq0 hq1 hgen
    obtain ⟨m, hm, hm2⟩ : ∃ m, size = m * m ∧ 2 ≤ m := by
      rcases hsize with h | h | h
      · exact ⟨2, by omega, by omega⟩
      · exact ⟨3, by omega, by omega⟩
      · exact ⟨4, by omega, by omega⟩
    obtain ⟨S, NC, _⟩ := generate_spec size m q s retry g hm hm2 hq0 hq1 hgen
    have hms : sqrtN g.length * sqrtN g.length = g.length := by
      rw [S.1, hm, sqrtN_eq]
    refine isValid_of_noConflicts hms ?_
    rw [S.1]
    exact NC

/-- C6 (witness): the three parts instantiated — a row-duplicate 4×4
board, the empty 4×4 board, and a concrete terminating `generatePuzzle`
run. -/
theorem c6_witness :
    isValidSudoku [[1, 1, 0, 0], [0, 0, 0, 0], [0, 0, 0, 0], [0, 0, 0, 0]] = false ∧
    isValidSudoku (List.replicate 4 (List.replicate 4 0)) = true ∧
    (generatePuzzle 4 0 (fun k =>
        [3, 2, 1, 3, 2, 1, 0, 0, 0, 1, 0, 2, 0, 3, 1, 0, 1, 1,
         1, 2, 1, 3, 2, 0, 2, 1, 2, 2, 2, 3].getD k 0) 1 =
      some [[0, 0, 0, 0], [0, 0, 0, 0], [0, 0, 0, 0], [2, 1, 3, 4]]) ∧
    isValidSudoku [[0, 0, 0, 0], [0, 0, 0, 0], [0, 0, 0, 0], [2, 1, 3, 4]] = true := by
  have hkeep : keepCount 4 0 = 4 := by
    unfold keepCount rOf
    norm_num
    rfl
  have hgen : generatePuzzle 4 0 (fun k =>
      [3, 2, 1, 3, 2, 1, 0, 0, 0, 1, 0, 2, 0, 3, 1, 0, 1, 1,
       1, 2, 1, 3, 2, 0, 2, 1, 2, 2, 2, 3].getD k 0) 1 =
      some [[0, 0, 0, 0], [0, 0, 0, 0], [0, 0, 0, 0], [2, 1, 3, 4]] := by
    rw [generatePuzzle_eq, hkeep]
    decide
  refine ⟨?_, ?_, hgen, ?_⟩
  · exact c6.1 [[1, 1, 0, 0], [0, 0, 0, 0], [0, 0, 0, 0], [0, 0, 0, 0]] 0 0 0 1
      (by decide) (by decide) (by decide) (by decide) (by decide) (Or.inl rfl)
      (by decide) (by decide)
  · exact c6.2.1 4
  · exact c6.2.2 4 0 (fun k =>
      [3, 2, 1, 3, 2, 1, 0, 0, 0, 1, 0, 2, 0, 3, 1, 0, 1, 1,
       1, 2, 1, 3, 2, 0, 2, 1, 2, 2, 2, 3].getD k 0) 1
      [[0, 0, 0, 0], [0, 0, 0, 0], [0, 0, 0, 0], [2, 1, 3, 4]]
      (Or.inl rfl) (by norm_num) (by norm_num) hgen

/-- C7: `isValidSudoku` leaves the board exactly as it found it (every
temporary clear is restored on both branches), and its result is the
full-board scan: it is true iff every filled cell, temporarily cleared,
passes `isSafe` for its own value. -/
theorem c7 (b : Board) :
    (isValidRun b).2 = b ∧
    (isValidSudoku b = true ↔
      ∀ r, r < b.length → ∀ c, c < b.length → getCell b r c ≠ 0 →
        isSafe (setCell b r c 0) r c (getCell b r c) = true) := by
  refine ⟨isValidRun_board b, ?_⟩
  rw [isValid_iff]
  constructor
  · intro h r hr c hc
    exact h r c hr hc
  · intro h r c hr hc
    exact h r hr c hc

/-- C8: for the supported sizes and every outcome on which
`generatePuzzle` returns a board, the board has exactly
`⌊N² · r⌋` non-zero cells with `r = 0.3 + 0.2·q ∈ [0.3, 0.5)`; for N = 9
the count lies between 24 and 40. -/
theorem c8 (size : Nat) (q : ℚ) (s : Nat → Nat) (retry : Nat) (g : Board)
    (hsize : size = 4 ∨ size = 9 ∨ size = 16) (hq0 : 0 ≤ q) (hq1 : q < 1)
    (hgen : generatePuzzle size q s retry = some g) :
    countNonzero g = keepCount size q ∧
    3 / 10 ≤ rOf q ∧ rOf q < 1 / 2 ∧
    (size = 9 → 24 ≤ countNonzero g ∧ countNonzero g ≤ 40) := by
  obtain ⟨m, hm, hm2⟩ : ∃ m, size = m * m ∧ 2 ≤ m := by
    rcases hsize with h | h | h
    · exact ⟨2, by omega, by omega⟩
    · exact ⟨3, by omega, by omega⟩
    · exact ⟨4, by omega, by omega⟩
  obtain ⟨_, _, hcount⟩ := generate_spec size m q s retry g hm hm2 hq0 hq1 hgen
  obtain ⟨hr0, hr1⟩ := rOf_bounds hq0 hq1
  refine ⟨hcount, hr0, hr1, ?_⟩
  intro h9
  subst h9
  rw [hcount]
  unfold keepCount
  have hx0 : (0 : ℚ) ≤ (((9 : Nat) : ℚ) * ((9 : Nat) : ℚ)) * rOf q := by
    push_cast
    nlinarith
  have hlow : (24 : ℤ) ≤ ⌊(((9 : Nat) : ℚ) * ((9 : Nat) : ℚ)) * rOf q⌋ := by
    rw [Int.le_floor]
    push_cast
    nlinarith
  have hhigh : ⌊(((9 : Nat) : ℚ) * ((9 : Nat) : ℚ)) * rOf q⌋ < 41 := by
    rw [Int.floor_lt]
    push_cast
    nlinarith
  omega

/-- C8 (witness): a concrete terminating run of `generatePuzzle 4`. -/
theorem c8_witness :
    ((4 : Nat) = 4 ∨ (4 : Nat) = 9 ∨ (4 : Nat) = 16) ∧ (0 : ℚ) ≤ 0 ∧ (0 : ℚ) < 1 ∧
    (generatePuzzle 4 0 (fun k =>
        [3, 2, 1, 3, 2, 1, 0, 0, 0, 1, 0, 2, 0, 3, 1, 0, 1, 1,
         1, 2, 1, 3, 2, 0, 2, 1, 2, 2, 2, 3].getD k 0) 1 =
      some [[0, 0, 0, 0], [0, 0, 0, 0], [0, 0, 0, 0], [2, 1, 3, 4]]) ∧
    countNonzero [[0, 0, 0, 0], [0, 0, 0, 0], [0, 0, 0, 0], [2, 1, 3, 4]] =
      keepCount 4 0 ∧
    3 / 10 ≤ rOf 0 ∧ rOf 0 < 1 / 2 := by
  have hkeep : keepCount 4 0 = 4 := by
    unfold keepCount rOf
    norm_num
    rfl
  have hgen : generatePuzzle 4 0 (fun k =>
      [3, 2, 1, 3, 2, 1, 0, 0, 0, 1, 0, 2, 0, 3, 1, 0, 1, 1,
       1, 2, 1, 3, 2, 0, 2, 1, 2, 2, 2, 3].getD k 0) 1 =
      some [[0, 0, 0, 0], [0, 0, 0, 0], [0, 0, 0, 0], [2, 1, 3, 4]] := by
    rw [generatePuzzle_eq, hkeep]
    decide
  have h := c8 4 0 (fun k =>
      [3, 2, 1, 3, 2, 1, 0, 0, 0, 1, 0, 2, 0, 3, 1, 0, 1, 1,
       1, 2, 1, 3, 2, 0, 2, 1, 2, 2, 2, 3].getD k 0) 1
      [[0, 0, 0, 0], [0, 0, 0, 0], [0, 0, 0, 0], [2, 1, 3, 4]]
      (Or.inl rfl) (by norm_num) (by norm_num) hgen
  exact ⟨Or.inl rfl, by norm_num, by norm_num, hgen, h.1, h.2.1, h.2.2.1⟩

/-- C9: `solveSudoku` never overwrites a non-zero input cell, and when it
returns `solved = false` the returned board is identical to the input
board (every tentative placement has been undone). -/
theorem c9 (b : Board) (r c : Nat) :
    (getCell b r c ≠ 0 → getCell (solveSudoku b).2.1 r c = getCell b r c) ∧
    ((solveSudoku b).1 = false → (solveSudoku b).2.1 = b) := by
  have h := solveAux_frame b.length (countZeros b + 1) b 0
  exact ⟨fun hnz => h.1 r c hnz, h.2⟩

/-- C9 (witness): the frame property instantiated on a concrete board the
solver fails on (the unsatisfiable seeding of `c1_counterexample`). -/
theorem c9_witness :
    getCell [[1, 2, 0, 0], [3, 4, 0, 0], [0, 0, 1, 3], [0, 0, 2, 4]] 0 0 ≠ 0 ∧
    getCell (solveSudoku [[1, 2, 0, 0], [3, 4, 0, 0], [0, 0, 1, 3], [0, 0, 2, 4]]).2.1
      0 0 = getCell [[1, 2, 0, 0], [3, 4, 0, 0], [0, 0, 1, 3], [0, 0, 2, 4]] 0 0 ∧
    (solveSudoku [[1, 2, 0, 0], [3, 4, 0, 0], [0, 0, 1, 3], [0, 0, 2, 4]]).1 = false ∧
    (solveSudoku [[1, 2, 0, 0], [3, 4, 0, 0], [0, 0, 1, 3], [0, 0, 2, 4]]).2.1 =
      [[1, 2, 0, 0], [3, 4, 0, 0], [0, 0, 1, 3], [0, 0, 2, 4]] := by
  refine ⟨by decide, ?_, by decide, ?_⟩
  · exact (c9 [[1, 2, 0, 0], [3, 4, 0, 0], [0, 0, 1, 3], [0, 0, 2, 4]] 0 0).1 (by decide)
  · exact (c9 [[1, 2, 0, 0], [3, 4, 0, 0], [0, 0, 1, 3], [0, 0, 2, 4]] 0 0).2 (by decide)

/-- C10: `isSafe` applied to an already-placed value returns false,
because the three scans include the target cell itself; a caller checking
a placed value must temporarily clear the cell first, as `isValidSudoku`
does. -/
theorem c10 (b : Board) (r c : Nat) (hc : c < b.length)
    (hnz : getCell b r c ≠ 0) :
    isSafe b r c (getCell b r c) = false := by
  exact isSafe_hit r c rfl (getCell_ne_zero_bounds hnz).1 hc (Or.inl rfl)

/-- C10 (witness): concrete instance. -/
theorem c10_witness :
    (0 < List.length [[3]] ∧ getCell [[3]] 0 0 ≠ 0) ∧
    isSafe [[3]] 0 0 (getCell [[3]] 0 0) = false := by
  exact ⟨⟨by decide, by decide⟩, c10 [[3]] 0 0 (by decide) (by decide)⟩

end GridMagic
